import Mathlib

/-!
# Verification of the YUI 3 history module (history-base / history-hash)

Shallow embedding of `src/build/history/history-debug.js`:

* `JSVal` models the JavaScript values stored in the shared state object
  (string values, `null`, and `undefined` held as an own property).
* `HState` models a JavaScript object as an association list in property
  insertion order; `objSet` mimics property assignment (an existing key keeps
  its position), `objDelete` mimics the `delete` operator, `getProp` mimics
  property read (absent key reads as `undefined`), `jsMerge` mimics `Y.merge`.
* `changedList`, `removePass`, `resolveChanges` embed
  `HistoryBase._resolveChanges`; `fireEvents` embeds `_fireEvents`;
  `changeOp` / `addOp` / `replaceOp` embed `_change` / `add` / `replace`.
-/

/-- A JavaScript value as stored in the history state object: a string, the
`null` value, or the `undefined` value held as an own property. -/
inductive JSVal where
  | str (s : String)
  | null
  | undef
deriving DecidableEq, Repr

/-- A JavaScript object used as a state map: association list of own
properties in insertion order. -/
abbrev HState := List (String × JSVal)

/-- `Obj.owns` / `Object.prototype.hasOwnProperty`. -/
def owns (st : HState) (k : String) : Bool :=
  st.any (fun p => p.1 == k)

/-- Property read `st[k]`: an absent key reads as `undefined`. -/
def getProp (st : HState) (k : String) : JSVal :=
  match st.find? (fun p => p.1 == k) with
  | some p => p.2
  | none => JSVal.undef

/-- Property assignment `st[k] = v`: an existing key keeps its position in
iteration order, a new key is appended. -/
def objSet (st : HState) (k : String) (v : JSVal) : HState :=
  if owns st k then st.map (fun p => if p.1 == k then (k, v) else p)
  else st ++ [(k, v)]

/-- The `delete st[k]` operator. -/
def objDelete (st : HState) (k : String) : HState :=
  st.filter (fun p => p.1 != k)

/-- `Y.merge(a, b)`: a fresh object with the properties of `a` assigned first
and then the properties of `b` assigned over them. -/
def jsMerge (a b : HState) : HState :=
  b.foldl (fun acc p => objSet acc p.1 p.2) a

/-- Source tag attached to every notification (`HistoryBase.SRC_ADD`,
`HistoryBase.SRC_REPLACE`, `History.SRC_HASH`). -/
inductive Src where
  | add
  | replace
  | hash
deriving DecidableEq, Repr

/-- An emitted notification: the global `history:change` event carrying the
full change set, a per-key `[key]Change` event, or a per-key `[key]Remove`
event (see `_fireEvents`, `_fireChangeEvent`, `_fireRemoveEvent`). -/
inductive HEvent where
  | change (changed : List (String × JSVal × JSVal)) (newVal prevVal : HState)
      (removed : List (String × JSVal)) (src : Src)
  | keyChange (key : String) (newVal prevVal : JSVal) (src : Src)
  | keyRemove (key : String) (prevVal : JSVal) (src : Src)
deriving DecidableEq, Repr

/-- First loop of `_resolveChanges`: for every key of `newState` whose value
differs (JavaScript `!==`) from its value in the previous state, record
`(key, newVal, prevVal)`, in iteration order of `newState`. -/
def changedList (prev ns : HState) : List (String × JSVal × JSVal) :=
  ns.foldl
    (fun acc kv =>
      if kv.2 ≠ getProp prev kv.1 then acc ++ [(kv.1, kv.2, getProp prev kv.1)]
      else acc)
    []

/-- Second loop of `_resolveChanges`: for every key of the previous state that
is absent from the working copy or explicitly `null` in it, delete it from the
working copy and record `(key, prevVal)`. Returns the mutated working copy and
the removed list. -/
def removePass (prev ns : HState) : HState × List (String × JSVal) :=
  prev.foldl
    (fun acc kv =>
      if ¬ owns acc.1 kv.1 ∨ getProp acc.1 kv.1 = JSVal.null then
        (objDelete acc.1 kv.1, acc.2 ++ [(kv.1, kv.2)])
      else acc)
    (ns, [])

/-- `_fireEvents`: the global change event, then one `[key]Change` event per
changed entry, then one `[key]Remove` event per removed entry. -/
def fireEvents (src : Src) (changed : List (String × JSVal × JSVal))
    (newSt prevSt : HState) (removed : List (String × JSVal)) : List HEvent :=
  HEvent.change changed newSt prevSt removed src
    :: changed.map (fun c => HEvent.keyChange c.1 c.2.1 c.2.2 src)
    ++ removed.map (fun r => HEvent.keyRemove r.1 r.2 src)

/-- `_resolveChanges` for the base (memory-backed) class: diff the candidate
state against the previous state; when anything changed, fire the events and
store the mutated working copy (via the `history:change` default function
`_defChangeFn` / `_storeState`). Returns the fired events and the resulting
stored state. -/
def resolveChanges (src : Src) (prev ns : HState) : List HEvent × HState :=
  let changed := changedList prev ns
  let pass := removePass prev ns
  if changed.isEmpty && pass.2.isEmpty then ([], prev)
  else (fireEvents src changed pass.1 prev pass.2, pass.1)

/-- Argument of `add` / `replace` / `_change`: either an object of key/value
pairs or a single key with a value. -/
inductive ChangeArg where
  | map (m : HState)
  | kv (k : String) (v : JSVal)
deriving DecidableEq, Repr

/-- The object `_change` builds from its argument: a single key becomes a
one-property object. -/
def argMap (a : ChangeArg) : HState :=
  match a with
  | ChangeArg.map m => m
  | ChangeArg.kv k v => [(k, v)]

/-- `_change(src, state, value)`: merge the argument over the current state
with `Y.merge` and resolve the changes. -/
def changeOp (src : Src) (a : ChangeArg) (prev : HState) : List HEvent × HState :=
  resolveChanges src prev (jsMerge prev (argMap a))

/-- `HistoryBase.add`. -/
def addOp (a : ChangeArg) (prev : HState) : List HEvent × HState :=
  changeOp Src.add a prev

/-- `HistoryBase.replace`. -/
def replaceOp (a : ChangeArg) (prev : HState) : List HEvent × HState :=
  changeOp Src.replace a prev

/-- The `changed` component of the global change event at the head of a fired
event list (empty when no event fired). -/
def globalChanged (evs : List HEvent) : List (String × JSVal × JSVal) :=
  match evs with
  | HEvent.change ch _ _ _ _ :: _ => ch
  | _ => []

/-- The `removed` component of the global change event at the head of a fired
event list (empty when no event fired). -/
def globalRemoved (evs : List HEvent) : List (String × JSVal) :=
  match evs with
  | HEvent.change _ _ _ rm _ :: _ => rm
  | _ => []

/-- The source tag carried by an emitted event. -/
def srcOf (e : HEvent) : Src :=
  match e with
  | HEvent.change _ _ _ _ s => s
  | HEvent.keyChange _ _ _ s => s
  | HEvent.keyRemove _ _ s => s

/-- The same event with its source tag replaced. -/
def retag (s : Src) (e : HEvent) : HEvent :=
  match e with
  | HEvent.change ch nv pv rm _ => HEvent.change ch nv pv rm s
  | HEvent.keyChange k nv pv _ => HEvent.keyChange k nv pv s
  | HEvent.keyRemove k pv _ => HEvent.keyRemove k pv s

/-- The keys of a state object are pairwise distinct (always true of a
JavaScript object; our association lists built by `objSet` maintain it). -/
def nodupKeys (st : HState) : Prop :=
  (st.map Prod.fst).Nodup

/-- `true` exactly on string values (`Y.Lang.isValue` restricted to the three
value shapes the state can hold: a string is a value, `null` and `undefined`
are not). -/
def JSVal.isStr (v : JSVal) : Bool :=
  match v with
  | JSVal.str _ => true
  | _ => false

/-- Every stored value is a string (the documented data model of the state). -/
def allStrVals (st : HState) : Prop :=
  ∀ kv ∈ st, kv.2.isStr = true

/-- No stored value is `null`. -/
def nullFree (st : HState) : Prop :=
  ∀ kv ∈ st, kv.2 ≠ JSVal.null

instance (st : HState) : Decidable (nodupKeys st) := by
  unfold nodupKeys; infer_instance

instance (st : HState) : Decidable (allStrVals st) := by
  unfold allStrVals; infer_instance

instance (st : HState) : Decidable (nullFree st) := by
  unfold nullFree; infer_instance

/-! ## The hash codec: encode / decode (encodeURIComponent wrappers) -/

/-- The unreserved characters of `encodeURIComponent` (ECMA-262 uriUnescaped):
ASCII letters, digits, and the marks - _ . ! ~ * ' ( ). -/
def isUnreserved (c : Char) : Bool :=
  (decide ('A' ≤ c) && decide (c ≤ 'Z')) || (decide ('a' ≤ c) && decide (c ≤ 'z'))
    || (decide ('0' ≤ c) && decide (c ≤ '9'))
    || (c == '-') || (c == '_') || (c == '.') || (c == '!') || (c == '~')
    || (c == '*') || (c == '\'') || (c == '(') || (c == ')')

/-- UTF-8 bytes of a character, as `encodeURIComponent` produces them. -/
def utf8Bytes (c : Char) : List Nat :=
  let n := c.toNat
  if n < 128 then [n]
  else if n < 2048 then [192 + n / 64, 128 + n % 64]
  else if n < 65536 then [224 + n / 4096, 128 + n / 64 % 64, 128 + n % 64]
  else [240 + n / 262144, 128 + n / 4096 % 64, 128 + n / 64 % 64, 128 + n % 64]

/-- Upper-case hex digit, as `encodeURIComponent` produces. -/
def hexDigitChar (n : Nat) : Char :=
  if n < 10 then Char.ofNat (48 + n) else Char.ofNat (55 + n)

/-- Hex digit value; `decodeURIComponent` accepts both cases. -/
def hexVal (c : Char) : Option Nat :=
  if '0' ≤ c ∧ c ≤ '9' then some (c.toNat - 48)
  else if 'A' ≤ c ∧ c ≤ 'F' then some (c.toNat - 55)
  else if 'a' ≤ c ∧ c ≤ 'f' then some (c.toNat - 87)
  else none

/-- A percent escape `%XY` for one byte. -/
def pctTriple (b : Nat) : List Char :=
  ['%', hexDigitChar (b / 16), hexDigitChar (b % 16)]

/-- `encodeURIComponent` on one character. -/
def encodeChar (c : Char) : List Char :=
  if isUnreserved c then [c]
  else ((utf8Bytes c).map pctTriple).flatten

/-- `encodeURIComponent` on a character list. -/
def encodeChars : List Char → List Char
  | [] => []
  | c :: rest => encodeChar c ++ encodeChars rest

/-- `.replace(/%20/g, '+')`: left-to-right replacement of each `%20` by `+`. -/
def replacePct20 : List Char → List Char
  | '%' :: '2' :: '0' :: rest => '+' :: replacePct20 rest
  | c :: rest => c :: replacePct20 rest
  | [] => []

/-- `.replace(/\+/g, ' ')`. -/
def plusToSpace (l : List Char) : List Char :=
  l.map (fun c => if c = '+' then ' ' else c)

/-- `History.encode`: `encodeURIComponent(string).replace(/%20/g, '+')`. -/
def History.encode (s : String) : String :=
  ⟨replacePct20 (encodeChars s.data)⟩

/-- One UTF-8 continuation byte given as a `%` escape with value in
`[0x80, 0xC0)`: yields the byte minus 0x80 and the remaining input. -/
def contEsc : List Char → Option (Nat × List Char)
  | p :: g1 :: g2 :: rest =>
    if p = '%' then
      (hexVal g1).bind (fun a =>
      (hexVal g2).bind (fun b =>
        if 128 ≤ 16 * a + b ∧ 16 * a + b < 192 then some (16 * a + b - 128, rest)
        else none))
    else none
  | _ => none

/-- One step of `decodeURIComponent` at a `%` escape (the input is the part
after the `%`): reads the two hex digits and, for a multi-byte UTF-8 lead
byte, the continuation escapes; yields the decoded character and the
remaining input. Shortest-form, surrogate and range violations and any
malformed escape are a `URIError`, modelled as `none`. -/
def escDecode : List Char → Option (Char × List Char)
  | h1 :: h2 :: rest1 =>
    (hexVal h1).bind (fun a =>
    (hexVal h2).bind (fun b =>
      if 16 * a + b < 128 then some (Char.ofNat (16 * a + b), rest1)
      else if 194 ≤ 16 * a + b ∧ 16 * a + b ≤ 223 then
        (contEsc rest1).bind (fun x2 =>
          some (Char.ofNat ((16 * a + b - 192) * 64 + x2.1), x2.2))
      else if 224 ≤ 16 * a + b ∧ 16 * a + b ≤ 239 then
        (contEsc rest1).bind (fun x2 =>
        (contEsc x2.2).bind (fun x3 =>
          if 2048 ≤ (16 * a + b - 224) * 4096 + x2.1 * 64 + x3.1
              ∧ ((16 * a + b - 224) * 4096 + x2.1 * 64 + x3.1 < 55296
                ∨ 57343 < (16 * a + b - 224) * 4096 + x2.1 * 64 + x3.1) then
            some (Char.ofNat ((16 * a + b - 224) * 4096 + x2.1 * 64 + x3.1), x3.2)
          else none))
      else if 240 ≤ 16 * a + b ∧ 16 * a + b ≤ 244 then
        (contEsc rest1).bind (fun x2 =>
        (contEsc x2.2).bind (fun x3 =>
        (contEsc x3.2).bind (fun x4 =>
          if 65536 ≤ (16 * a + b - 240) * 262144 + x2.1 * 4096 + x3.1 * 64 + x4.1
              ∧ (16 * a + b - 240) * 262144 + x2.1 * 4096 + x3.1 * 64 + x4.1
                ≤ 1114111 then
            some (Char.ofNat ((16 * a + b - 240) * 262144 + x2.1 * 4096
              + x3.1 * 64 + x4.1), x4.2)
          else none)))
      else none))
  | _ => none

/-- One step of `decodeURIComponent`: a plain character passes through, a `%`
starts an escape. -/
def decodeOne : List Char → Option (Char × List Char)
  | [] => none
  | c :: rest => if c = '%' then escDecode rest else some (c, rest)

/-- `decodeURIComponent` on a character list, fuelled (one unit of fuel per
decoded character; the wrapper supplies enough). -/
def decodeAux : Nat → List Char → Option (List Char)
  | 0, _ => none
  | _ + 1, [] => some []
  | fuel + 1, c :: rest =>
    match decodeOne (c :: rest) with
    | some p => (decodeAux fuel p.2).map (fun t => p.1 :: t)
    | none => none

/-- `decodeURIComponent` on a character list. -/
def decodeChars (l : List Char) : Option (List Char) :=
  decodeAux (l.length + 1) l

/-- `History.decode`: `decodeURIComponent(string.replace(/\+/g, ' '))`. -/
def History.decode (s : String) : Option String :=
  (decodeChars (plusToSpace s.data)).map (fun l => ⟨l⟩)

/-! ## createHash / parseHash and the fragment model -/

/-- `Array.prototype.join('&')`. -/
def joinAmp : List String → String
  | [] => ""
  | [x] => x
  | x :: rest => x ++ "&" ++ joinAmp rest

/-- The `encode(key) + '=' + encode(value)` pairs pushed by
`History.createHash`, skipping keys whose value is not a value
(`Lang.isValue`). -/
def createHashPairs : HState → List String
  | [] => []
  | kv :: rest =>
    match kv.2 with
    | JSVal.str s => (History.encode kv.1 ++ "=" ++ History.encode s) :: createHashPairs rest
    | _ => createHashPairs rest

/-- `History.createHash`. -/
def History.createHash (params : HState) : String :=
  joinAmp (createHashPairs params)

/-- Character class `[^\?#&]` of the first capture group of
`History._REGEX_HASH`. -/
def g1ok (c : Char) : Bool :=
  !(c == '?') && !(c == '#') && !(c == '&')

/-- Character class `[^&]` of the second capture group. -/
def g2ok (c : Char) : Bool :=
  !(c == '&')

/-- Backtracking search for the greedy split of `([^\?#&]+)=([^&]+)` at the
start of `cs`: the largest group-one length `g ≥ 1` (tried from the maximal
run downward) such that `cs` has `=` at index `g` followed by at least one
`[^&]` character. -/
def findSplit (cs : List Char) : Nat → Option Nat
  | 0 => none
  | j + 1 =>
    if (cs.get? (j + 1) == some '=')
        && (match cs.get? (j + 2) with | some c => g2ok c | none => false)
    then some (j + 1) else findSplit cs j

/-- One attempt of `History._REGEX_HASH` at the start of `cs`: on success,
the matched substring and the rest of the input. -/
def tryMatchAt (cs : List Char) : Option (List Char × List Char) :=
  match findSplit cs (cs.takeWhile g1ok).length with
  | none => none
  | some g =>
    let v := (cs.drop (g + 1)).takeWhile g2ok
    some (cs.take (g + 1) ++ v, cs.drop (g + 1 + v.length))

/-- Global regex scan (`hash.match(History._REGEX_HASH)`): leftmost matches,
resuming after each match; fuelled by the input length. -/
def scanAux : Nat → List Char → List (List Char)
  | 0, _ => []
  | _, [] => []
  | fuel + 1, c :: rest =>
    match tryMatchAt (c :: rest) with
    | some (m, rest') => m :: scanAux fuel rest'
    | none => scanAux fuel rest

/-- All matches of `History._REGEX_HASH` in `cs`. -/
def scanMatches (cs : List Char) : List (List Char) :=
  scanAux cs.length cs

/-- `String.prototype.split('=')`. -/
def splitOnEq : List Char → List (List Char)
  | [] => [[]]
  | c :: rest =>
    if c = '=' then [] :: splitOnEq rest
    else
      match splitOnEq rest with
      | [] => [[c]]
      | t :: ts => (c :: t) :: ts

/-- `String.prototype.indexOf` for a substring. -/
def idxOf (needle : List Char) : List Char → Option Nat
  | [] => if needle = [] then some 0 else none
  | hay@(_ :: t) =>
    if hay.take needle.length = needle then some 0
    else (idxOf needle t).map (fun i => i + 1)

/-- The prefix stripping done at the top of `History.parseHash`: the prefix is
removed (first occurrence) when it sits at index 0, or at index 1 behind a
leading `#`. -/
def parseStrip (pfx hash : String) : String :=
  if pfx = "" then hash
  else
    match idxOf pfx.data hash.data with
    | some 0 => ⟨hash.data.drop pfx.data.length⟩
    | some 1 =>
      if hash.data.head? = some '#' then
        ⟨hash.data.take 1 ++ hash.data.drop (1 + pfx.data.length)⟩
      else hash
    | _ => hash

/-- `History.parseHash` on an explicit hash string: strip the prefix, collect
the regex matches, split each on `=`, decode the first two pieces and assign
into the result object. A decode error (`URIError`) poisons the whole call. -/
def History.parseHash (pfx hash : String) : Option HState :=
  (scanMatches (parseStrip pfx hash).data).foldlM
    (fun params m =>
      match splitOnEq m with
      | p0 :: p1 :: _ =>
        match History.decode ⟨p0⟩, History.decode ⟨p1⟩ with
        | some k, some v => some (objSet params k (JSVal.str v))
        | _, _ => none
      | _ => none)
    []

/-- `History.getHash` (non-Gecko branch): the location fragment, with the
prefix stripped when it sits at index 0. `loc` holds `location.hash` without
its leading `#`. -/
def History.getHash (pfx loc : String) : String :=
  if pfx ≠ "" ∧ idxOf pfx.data loc.data = some 0 then ⟨loc.data.drop pfx.data.length⟩
  else loc

/-- A write to the location fragment: `History.setHash` (new history entry)
or `History.replaceHash` (in-place), carrying the hash argument. -/
inductive FragWrite where
  | setH (h : String)
  | replH (h : String)
deriving DecidableEq, Repr

/-- The new location fragment after `setHash` / `replaceHash`: a leading `#`
of the argument is stripped, then the prefix is prepended. -/
def writeLoc (pfx h : String) : String :=
  pfx ++ (if h.data.head? = some '#' then (⟨h.data.drop 1⟩ : String) else h)

/-- `History._storeState` (hash subclass): store in memory, then write the
fragment only when the encoded new state differs from the current fragment;
`SRC_REPLACE` uses `replaceHash`, every other source uses `setHash`. Returns
the stored state, the new location fragment and the writes performed. -/
def History.storeState (pfx : String) (src : Src) (ns : HState) (loc : String) :
    HState × String × List FragWrite :=
  let newHash := History.createHash ns
  if History.getHash pfx loc ≠ newHash then
    if src = Src.replace then (ns, writeLoc pfx newHash, [FragWrite.replH newHash])
    else (ns, writeLoc pfx newHash, [FragWrite.setH newHash])
  else (ns, loc, [])

/-- `_resolveChanges` as it runs in a hash-backed `History` instance: same
diff as the base class, with the overridden `_storeState`. Returns the fired
events, the stored state, the location fragment and the fragment writes. -/
def histResolve (pfx : String) (src : Src) (prev ns : HState) (loc : String) :
    List HEvent × HState × String × List FragWrite :=
  let changed := changedList prev ns
  let pass := removePass prev ns
  if changed.isEmpty && pass.2.isEmpty then ([], prev, loc, [])
  else
    (fireEvents src changed pass.1 prev pass.2, History.storeState pfx src pass.1 loc)

/-- `_change` in a hash-backed `History` instance. -/
def histChange (pfx : String) (src : Src) (a : ChangeArg) (prev : HState)
    (loc : String) : List HEvent × HState × String × List FragWrite :=
  histResolve pfx src prev (jsMerge prev (argMap a)) loc

/-- `History.add` in a hash-backed instance. -/
def histAdd (pfx : String) (a : ChangeArg) (prev : HState) (loc : String) :
    List HEvent × HState × String × List FragWrite :=
  histChange pfx Src.add a prev loc

/-- `History.replace` in a hash-backed instance. -/
def histReplace (pfx : String) (a : ChangeArg) (prev : HState) (loc : String) :
    List HEvent × HState × String × List FragWrite :=
  histChange pfx Src.replace a prev loc

/-- `History._afterHashChange`: the new fragment value is parsed and resolved
with source `HASH`. -/
def afterHashChange (pfx newHash : String) (prev : HState) (loc : String) :
    Option (List HEvent × HState × String × List FragWrite) :=
  (History.parseHash pfx newHash).map (fun st => histResolve pfx Src.hash prev st loc)

/-- The fragment writes of a hash-backed resolve result. -/
def writesOf (r : List HEvent × HState × String × List FragWrite) : List FragWrite :=
  r.2.2.2

/-! ## Basic lemmas about the object model -/

theorem owns_eq_true_iff {st : HState} {k : String} :
    owns st k = true ↔ ∃ kv ∈ st, kv.1 = k := by
  simp [owns]

theorem owns_eq_false_iff {st : HState} {k : String} :
    owns st k = false ↔ ∀ kv ∈ st, kv.1 ≠ k := by
  simp [owns]

theorem owns_nil (k : String) : owns [] k = false := rfl

theorem owns_cons {p : String × JSVal} {rest : HState} {k : String} :
    owns (p :: rest) k = ((p.1 == k) || owns rest k) := by
  simp [owns, List.any_cons]

theorem nodupKeys_nil : nodupKeys ([] : HState) := by
  simp [nodupKeys]

theorem nodupKeys_cons {p : String × JSVal} {rest : HState}
    (h : nodupKeys (p :: rest)) :
    p.1 ∉ rest.map Prod.fst ∧ nodupKeys rest := by
  unfold nodupKeys at h ⊢
  rw [List.map_cons, List.nodup_cons] at h
  exact h

theorem mem_keys_iff {st : HState} {k : String} :
    k ∈ st.map Prod.fst ↔ ∃ kv ∈ st, kv.1 = k := by
  constructor
  · intro h
    rcases List.mem_map.1 h with ⟨kv, hm, hk⟩
    exact ⟨kv, hm, hk⟩
  · rintro ⟨kv, hm, hk⟩
    exact List.mem_map.2 ⟨kv, hm, hk⟩

theorem owns_iff_mem_keys {st : HState} {k : String} :
    owns st k = true ↔ k ∈ st.map Prod.fst := by
  rw [owns_eq_true_iff, mem_keys_iff]

theorem getProp_nil (k : String) : getProp [] k = JSVal.undef := rfl

theorem getProp_cons_self {p : String × JSVal} {rest : HState} {k : String}
    (h : p.1 = k) : getProp (p :: rest) k = p.2 := by
  have : (p.1 == k) = true := by simpa using h
  simp [getProp, List.find?, this]

theorem getProp_cons_ne {p : String × JSVal} {rest : HState} {k : String}
    (h : p.1 ≠ k) : getProp (p :: rest) k = getProp rest k := by
  have : (p.1 == k) = false := by simpa using h
  simp [getProp, List.find?, this]

theorem getProp_of_owns_false {st : HState} {k : String} (h : owns st k = false) :
    getProp st k = JSVal.undef := by
  induction st with
  | nil => rfl
  | cons p rest ih =>
    rw [owns_cons, Bool.or_eq_false_iff] at h
    have hp : p.1 ≠ k := by simpa using h.1
    rw [getProp_cons_ne hp]
    exact ih h.2

theorem getProp_mem {st : HState} {k : String} {v : JSVal}
    (hnd : nodupKeys st) (hm : (k, v) ∈ st) : getProp st k = v := by
  induction st with
  | nil => cases hm
  | cons p rest ih =>
    obtain ⟨hnot, hrest⟩ := nodupKeys_cons hnd
    rcases List.mem_cons.1 hm with heq | hm'
    · rw [getProp_cons_self (by rw [← heq])]
      rw [← heq]
    · have hk : p.1 ≠ k := by
        intro hpk
        apply hnot
        rw [hpk]
        exact List.mem_map.2 ⟨(k, v), hm', rfl⟩
      rw [getProp_cons_ne hk]
      exact ih hrest hm'

theorem getProp_nullFree {st : HState} (h : nullFree st) (k : String) :
    getProp st k ≠ JSVal.null := by
  unfold getProp
  cases hf : st.find? (fun p => p.1 == k) with
  | none => simp
  | some p => exact h p (List.mem_of_find?_eq_some hf)

theorem allStrVals_nullFree {st : HState} (h : allStrVals st) : nullFree st := by
  intro kv hm
  have := h kv hm
  cases hv : kv.2 <;> simp [hv, JSVal.isStr] at this ⊢

theorem getProp_allStr {st : HState} (h : allStrVals st) (k : String) :
    getProp st k ≠ JSVal.null :=
  getProp_nullFree (allStrVals_nullFree h) k

/-! ## Lemmas about objSet, objDelete, jsMerge -/

theorem beq_true_of_eq {a b : String} (h : a = b) : (a == b) = true := by
  simpa using h

theorem getProp_setMap {st : HState} {k : String} {v : JSVal}
    (h : owns st k = true) :
    getProp (st.map (fun p => if p.1 == k then (k, v) else p)) k = v := by
  induction st with
  | nil => cases h
  | cons p rest ih =>
    rw [List.map_cons]
    by_cases hp : p.1 = k
    · rw [if_pos (beq_true_of_eq hp)]
      exact getProp_cons_self rfl
    · rw [if_neg (not_beq_of_ne hp)]
      rw [getProp_cons_ne hp]
      rw [owns_cons, beq_false_of_ne hp, Bool.false_or] at h
      exact ih h

theorem getProp_setMap_ne {st : HState} {k q : String} {v : JSVal}
    (hq : q ≠ k) :
    getProp (st.map (fun p => if p.1 == k then (k, v) else p)) q
      = getProp st q := by
  induction st with
  | nil => rfl
  | cons p rest ih =>
    rw [List.map_cons]
    by_cases hp : p.1 = k
    · rw [if_pos (beq_true_of_eq hp)]
      rw [getProp_cons_ne (show (k, v).1 ≠ q from Ne.symm hq)]
      rw [getProp_cons_ne (show p.1 ≠ q by rw [hp]; exact Ne.symm hq)]
      exact ih
    · rw [if_neg (not_beq_of_ne hp)]
      by_cases hpq : p.1 = q
      · rw [getProp_cons_self hpq, getProp_cons_self hpq]
      · rw [getProp_cons_ne hpq, getProp_cons_ne hpq]
        exact ih

theorem getProp_append (st l : HState) (k : String) :
    getProp (st ++ l) k = if owns st k = true then getProp st k else getProp l k := by
  induction st with
  | nil => simp [owns_nil]
  | cons p rest ih =>
    rw [List.cons_append]
    by_cases hp : p.1 = k
    · rw [getProp_cons_self hp, owns_cons, beq_true_of_eq hp, Bool.true_or]
      rw [if_pos rfl, getProp_cons_self hp]
    · rw [getProp_cons_ne hp, owns_cons, beq_false_of_ne hp, Bool.false_or, ih]
      by_cases ho : owns rest k = true
      · rw [if_pos ho, if_pos ho, getProp_cons_ne hp]
      · rw [if_neg ho, if_neg ho]

theorem getProp_objSet_self (st : HState) (k : String) (v : JSVal) :
    getProp (objSet st k v) k = v := by
  unfold objSet
  by_cases h : owns st k = true
  · rw [if_pos h]
    exact getProp_setMap h
  · rw [if_neg h]
    rw [getProp_append, if_neg h]
    exact getProp_cons_self rfl

theorem getProp_objSet_ne (st : HState) {k q : String} (v : JSVal) (hq : q ≠ k) :
    getProp (objSet st k v) q = getProp st q := by
  unfold objSet
  by_cases h : owns st k = true
  · rw [if_pos h]
    exact getProp_setMap_ne hq
  · rw [if_neg h]
    rw [getProp_append]
    by_cases ho : owns st q = true
    · rw [if_pos ho]
    · rw [if_neg ho]
      rw [getProp_cons_ne (show (k, v).1 ≠ q from Ne.symm hq), getProp_nil]
      have h' : owns st q = false := by simpa using ho
      exact (getProp_of_owns_false h').symm

theorem owns_objSet (st : HState) (k : String) (v : JSVal) (q : String) :
    owns (objSet st k v) q = true ↔ (owns st q = true ∨ q = k) := by
  unfold objSet
  by_cases h : owns st k = true
  · rw [if_pos h]
    rw [owns_eq_true_iff]
    constructor
    · rintro ⟨kv, hm, hk⟩
      rcases List.mem_map.1 hm with ⟨p, hp, hfp⟩
      by_cases hpk : p.1 = k
      · rw [if_pos (beq_true_of_eq hpk)] at hfp
        right
        rw [← hk, ← hfp]
      · rw [if_neg (not_beq_of_ne hpk)] at hfp
        left
        exact owns_eq_true_iff.2 ⟨p, hp, by rw [hfp, hk]⟩
    · intro hc
      rcases hc with ho | rfl
      · rcases owns_eq_true_iff.1 ho with ⟨p, hp, hpq⟩
        by_cases hpk : p.1 = k
        · refine ⟨(k, v), List.mem_map.2 ⟨p, hp, if_pos (beq_true_of_eq hpk)⟩, ?_⟩
          rw [← hpq, hpk]
        · exact ⟨p, List.mem_map.2 ⟨p, hp, if_neg (not_beq_of_ne hpk)⟩, hpq⟩
      · rcases owns_eq_true_iff.1 h with ⟨p, hp, hpk⟩
        refine ⟨(q, v), List.mem_map.2 ⟨p, hp, ?_⟩, rfl⟩
        rw [if_pos (beq_true_of_eq hpk)]
  · rw [if_neg h]
    rw [owns_eq_true_iff]
    constructor
    · rintro ⟨kv, hm, hk⟩
      rcases List.mem_append.1 hm with hm' | hm'
      · exact Or.inl (owns_eq_true_iff.2 ⟨kv, hm', hk⟩)
      · right
        rcases List.mem_singleton.1 hm' with rfl
        rw [← hk]
    · intro hc
      rcases hc with ho | rfl
      · rcases owns_eq_true_iff.1 ho with ⟨p, hp, hpq⟩
        exact ⟨p, List.mem_append.2 (Or.inl hp), hpq⟩
      · exact ⟨(q, v), List.mem_append.2 (Or.inr (List.mem_singleton.2 rfl)), rfl⟩

theorem objSet_keys_of_owns {st : HState} {k : String} (v : JSVal)
    (h : owns st k = true) :
    (objSet st k v).map Prod.fst = st.map Prod.fst := by
  unfold objSet
  rw [if_pos h, List.map_map]
  apply List.map_congr_left
  intro p _
  by_cases hp : p.1 = k
  · rw [Function.comp_apply, if_pos (beq_true_of_eq hp)]
    rw [← hp]
  · rw [Function.comp_apply, if_neg (not_beq_of_ne hp)]

theorem nodupKeys_objSet {st : HState} (k : String) (v : JSVal)
    (h : nodupKeys st) : nodupKeys (objSet st k v) := by
  by_cases ho : owns st k = true
  · unfold nodupKeys
    rw [objSet_keys_of_owns v ho]
    exact h
  · unfold objSet
    rw [if_neg ho]
    unfold nodupKeys
    rw [List.map_append]
    simp only [List.map_cons, List.map_nil]
    rw [List.nodup_append]
    refine ⟨h, List.nodup_singleton k, ?_⟩
    intro x hx
    simp only [List.mem_singleton]
    intro hxk
    apply ho
    rw [hxk] at hx
    exact owns_iff_mem_keys.2 hx

theorem objDelete_of_owns_false {st : HState} {k : String}
    (h : owns st k = false) : objDelete st k = st := by
  unfold objDelete
  rw [owns_eq_false_iff] at h
  apply List.filter_eq_self.2
  intro p hp
  simpa using h p hp

theorem owns_objDelete (st : HState) (k q : String) :
    owns (objDelete st k) q = true ↔ (owns st q = true ∧ q ≠ k) := by
  unfold objDelete
  rw [owns_eq_true_iff, owns_eq_true_iff]
  constructor
  · rintro ⟨kv, hm, hk⟩
    rw [List.mem_filter] at hm
    refine ⟨⟨kv, hm.1, hk⟩, ?_⟩
    intro hqk
    have := hm.2
    rw [hk, hqk] at this
    simp at this
  · rintro ⟨⟨kv, hm, hk⟩, hne⟩
    refine ⟨kv, List.mem_filter.2 ⟨hm, ?_⟩, hk⟩
    rw [hk]
    simpa using hne

theorem getProp_objDelete_self (st : HState) (k : String) :
    getProp (objDelete st k) k = JSVal.undef := by
  apply getProp_of_owns_false
  by_cases h : owns (objDelete st k) k = true
  · rcases (owns_objDelete st k k).1 h with ⟨_, hne⟩
    exact absurd rfl hne
  · simpa using h

theorem getProp_objDelete_ne (st : HState) {k q : String} (hq : q ≠ k) :
    getProp (objDelete st k) q = getProp st q := by
  unfold objDelete
  induction st with
  | nil => rfl
  | cons p rest ih =>
    rw [List.filter_cons]
    by_cases hp : p.1 = k
    · have : (p.1 != k) = false := by simp [hp]
      rw [this]
      simp only [Bool.false_eq_true, if_false]
      rw [getProp_cons_ne (show p.1 ≠ q by rw [hp]; exact Ne.symm hq)]
      exact ih
    · have : (p.1 != k) = true := by simp [hp]
      rw [this]
      simp only [if_true]
      by_cases hpq : p.1 = q
      · rw [getProp_cons_self hpq, getProp_cons_self hpq]
      · rw [getProp_cons_ne hpq, getProp_cons_ne hpq]
        exact ih

theorem nodupKeys_objDelete {st : HState} (k : String)
    (h : nodupKeys st) : nodupKeys (objDelete st k) := by
  unfold nodupKeys at h ⊢
  unfold objDelete
  have hsub : List.Sublist ((st.filter (fun p => p.1 != k)).map Prod.fst)
      (st.map Prod.fst) := (List.filter_sublist st).map Prod.fst
  exact h.sublist hsub

theorem jsMerge_nil (a : HState) : jsMerge a [] = a := rfl

theorem jsMerge_cons (a : HState) (p : String × JSVal) (b : HState) :
    jsMerge a (p :: b) = jsMerge (objSet a p.1 p.2) b := rfl

theorem jsMerge_single (a : HState) (k : String) (v : JSVal) :
    jsMerge a [(k, v)] = objSet a k v := rfl

theorem owns_jsMerge (a b : HState) (q : String) :
    owns (jsMerge a b) q = true ↔ (owns a q = true ∨ owns b q = true) := by
  induction b generalizing a with
  | nil => simp [jsMerge_nil, owns_nil]
  | cons p rest ih =>
    rw [jsMerge_cons, ih, owns_objSet, owns_cons]
    constructor
    · rintro ((ho | rfl) | ho)
      · exact Or.inl ho
      · right
        simp
      · right
        rw [Bool.or_eq_true]
        exact Or.inr ho
    · rintro (ho | ho)
      · exact Or.inl (Or.inl ho)
      · rw [Bool.or_eq_true] at ho
        rcases ho with hb | ho
        · have hpq : p.1 = q := by simpa using hb
          exact Or.inl (Or.inr hpq.symm)
        · exact Or.inr ho

theorem nodupKeys_jsMerge {a : HState} (b : HState)
    (h : nodupKeys a) : nodupKeys (jsMerge a b) := by
  induction b generalizing a with
  | nil => exact h
  | cons p rest ih =>
    rw [jsMerge_cons]
    exact ih (nodupKeys_objSet p.1 p.2 h)

theorem getProp_jsMerge_of_not_owns {a b : HState} {q : String}
    (h : owns b q = false) :
    getProp (jsMerge a b) q = getProp a q := by
  induction b generalizing a with
  | nil => rfl
  | cons p rest ih =>
    rw [owns_cons, Bool.or_eq_false_iff] at h
    have hp : p.1 ≠ q := by simpa using h.1
    rw [jsMerge_cons, ih h.2, getProp_objSet_ne _ _ (Ne.symm hp)]

theorem getProp_jsMerge_of_owns {a b : HState} {q : String}
    (hnd : nodupKeys b) (h : owns b q = true) :
    getProp (jsMerge a b) q = getProp b q := by
  induction b generalizing a with
  | nil => cases h
  | cons p rest ih =>
    obtain ⟨hnot, hrest⟩ := nodupKeys_cons hnd
    rw [jsMerge_cons]
    by_cases hp : p.1 = q
    · have hrq : owns rest q = false := by
        by_cases hr : owns rest q = true
        · exfalso
          apply hnot
          rw [hp]
          exact owns_iff_mem_keys.1 hr
        · simpa using hr
      rw [getProp_jsMerge_of_not_owns hrq, getProp_cons_self hp]
      rw [← hp, getProp_objSet_self]
    · rw [owns_cons, beq_false_of_ne hp, Bool.false_or] at h
      rw [ih hrest h, getProp_cons_ne hp]

/-! ## Lemmas about the diff loops -/

theorem changed_step_acc (prev : HState) (l : HState) :
    ∀ (acc : List (String × JSVal × JSVal)),
      l.foldl (fun a kv => if kv.2 ≠ getProp prev kv.1
          then a ++ [(kv.1, kv.2, getProp prev kv.1)] else a) acc
        = acc ++ l.foldl (fun a kv => if kv.2 ≠ getProp prev kv.1
            then a ++ [(kv.1, kv.2, getProp prev kv.1)] else a) [] := by
  induction l with
  | nil => intro acc; simp
  | cons kv rest ih =>
    intro acc
    rw [List.foldl_cons, List.foldl_cons]
    by_cases h : kv.2 ≠ getProp prev kv.1
    · rw [if_pos h, if_pos h]
      rw [ih (acc ++ [(kv.1, kv.2, getProp prev kv.1)]),
          ih ([] ++ [(kv.1, kv.2, getProp prev kv.1)])]
      simp
    · rw [if_neg h, if_neg h]
      exact ih acc

theorem changedList_cons (prev : HState) (kv : String × JSVal) (rest : HState) :
    changedList prev (kv :: rest)
      = (if kv.2 ≠ getProp prev kv.1 then [(kv.1, kv.2, getProp prev kv.1)] else [])
        ++ changedList prev rest := by
  unfold changedList
  rw [List.foldl_cons]
  by_cases h : kv.2 ≠ getProp prev kv.1
  · rw [if_pos h, if_pos h, List.nil_append]
    exact changed_step_acc prev rest _
  · rw [if_neg h, if_neg h, List.nil_append]

theorem changedList_nil_of {prev ns : HState}
    (h : ∀ kv ∈ ns, kv.2 = getProp prev kv.1) : changedList prev ns = [] := by
  induction ns with
  | nil => rfl
  | cons kv rest ih =>
    rw [changedList_cons]
    have h1 : ¬ kv.2 ≠ getProp prev kv.1 := by
      have := h kv (List.mem_cons_self kv rest)
      simpa using this
    rw [if_neg h1, List.nil_append]
    exact ih (fun kv' hm => h kv' (List.mem_cons_of_mem _ hm))

theorem changedList_append (prev : HState) (l₁ l₂ : HState) :
    changedList prev (l₁ ++ l₂) = changedList prev l₁ ++ changedList prev l₂ := by
  induction l₁ with
  | nil => rw [List.nil_append]; rfl
  | cons kv rest ih =>
    rw [List.cons_append, changedList_cons, changedList_cons, ih, List.append_assoc]

theorem removePass_id_aux (ns : HState) :
    ∀ (prev : HState) (acc₂ : List (String × JSVal)),
      (∀ kv ∈ prev, owns ns kv.1 = true ∧ getProp ns kv.1 ≠ JSVal.null) →
      prev.foldl (fun acc kv =>
          if ¬ owns acc.1 kv.1 ∨ getProp acc.1 kv.1 = JSVal.null then
            (objDelete acc.1 kv.1, acc.2 ++ [(kv.1, kv.2)])
          else acc) (ns, acc₂) = (ns, acc₂) := by
  intro prev
  induction prev with
  | nil => intro acc₂ _; rfl
  | cons kv rest ih =>
    intro acc₂ h
    rw [List.foldl_cons]
    obtain ⟨ho, hn⟩ := h kv (List.mem_cons_self kv rest)
    have hcond : ¬ (¬ owns (ns, acc₂).1 kv.1 = true
        ∨ getProp (ns, acc₂).1 kv.1 = JSVal.null) := by
      push_neg
      exact ⟨by simpa using ho, hn⟩
    rw [if_neg hcond]
    exact ih acc₂ (fun kv' hm => h kv' (List.mem_cons_of_mem _ hm))

theorem removePass_id {prev ns : HState}
    (h : ∀ kv ∈ prev, owns ns kv.1 = true ∧ getProp ns kv.1 ≠ JSVal.null) :
    removePass prev ns = (ns, []) := by
  unfold removePass
  exact removePass_id_aux ns prev [] h

theorem removePass_fst_aux (ns : HState) :
    ∀ (prev : HState) (acc₂ : List (String × JSVal)),
      (∀ kv ∈ prev, owns ns kv.1 = false ∨ getProp ns kv.1 ≠ JSVal.null) →
      (prev.foldl (fun acc kv =>
          if ¬ owns acc.1 kv.1 ∨ getProp acc.1 kv.1 = JSVal.null then
            (objDelete acc.1 kv.1, acc.2 ++ [(kv.1, kv.2)])
          else acc) (ns, acc₂)).1 = ns := by
  intro prev
  induction prev with
  | nil => intro acc₂ _; rfl
  | cons kv rest ih =>
    intro acc₂ h
    rw [List.foldl_cons]
    have htail := fun kv' hm => h kv' (List.mem_cons_of_mem _ hm)
    rcases h kv (List.mem_cons_self kv rest) with ho | hn
    · by_cases hcond : ¬ owns (ns, acc₂).1 kv.1 = true
        ∨ getProp (ns, acc₂).1 kv.1 = JSVal.null
      · rw [if_pos hcond]
        have hdel : objDelete (ns, acc₂).1 kv.1 = ns := objDelete_of_owns_false ho
        rw [hdel]
        exact ih _ htail
      · rw [if_neg hcond]
        exact ih _ htail
    · by_cases ho : owns ns kv.1 = true
      · have hcond : ¬ (¬ owns (ns, acc₂).1 kv.1 = true
            ∨ getProp (ns, acc₂).1 kv.1 = JSVal.null) := by
          push_neg
          exact ⟨by simpa using ho, hn⟩
        rw [if_neg hcond]
        exact ih _ htail
      · have ho' : owns ns kv.1 = false := by simpa using ho
        have hcond : ¬ owns (ns, acc₂).1 kv.1 = true
            ∨ getProp (ns, acc₂).1 kv.1 = JSVal.null := by
          left
          simp [ho']
        rw [if_pos hcond]
        have hdel : objDelete (ns, acc₂).1 kv.1 = ns := objDelete_of_owns_false ho'
        rw [hdel]
        exact ih _ htail

theorem removePass_fst_id {prev ns : HState}
    (h : ∀ kv ∈ prev, owns ns kv.1 = false ∨ getProp ns kv.1 ≠ JSVal.null) :
    (removePass prev ns).1 = ns := by
  unfold removePass
  exact removePass_fst_aux ns prev [] h

theorem owns_objDelete_ne (st : HState) {k q : String} (hq : q ≠ k) :
    owns (objDelete st k) q = owns st q := by
  by_cases h : owns st q = true
  · rw [h]
    exact (owns_objDelete st k q).2 ⟨h, hq⟩
  · have h' : owns st q = false := by simpa using h
    rw [h']
    by_cases hd : owns (objDelete st k) q = true
    · exact absurd ((owns_objDelete st k q).1 hd).1 (by simp [h'])
    · simpa using hd

theorem removePass_getProp_aux :
    ∀ (prev : HState) (w : HState) (acc₂ : List (String × JSVal)) (k : String),
      nodupKeys prev →
      getProp (prev.foldl (fun acc kv =>
          if ¬ owns acc.1 kv.1 ∨ getProp acc.1 kv.1 = JSVal.null then
            (objDelete acc.1 kv.1, acc.2 ++ [(kv.1, kv.2)])
          else acc) (w, acc₂)).1 k
        = if k ∈ prev.map Prod.fst ∧ (owns w k = false ∨ getProp w k = JSVal.null)
          then JSVal.undef else getProp w k := by
  intro prev
  induction prev with
  | nil =>
    intro w acc₂ k _
    rw [if_neg]
    · rfl
    · rintro ⟨hk, _⟩
      simp at hk
  | cons kv rest ih =>
    intro w acc₂ k hnd
    obtain ⟨hnot, hrest⟩ := nodupKeys_cons hnd
    rw [List.foldl_cons]
    have hkeys : k ∈ (kv :: rest).map Prod.fst ↔ (k = kv.1 ∨ k ∈ rest.map Prod.fst) := by
      rw [List.map_cons, List.mem_cons]
    by_cases hcond : ¬ owns (w, acc₂).1 kv.1 = true
        ∨ getProp (w, acc₂).1 kv.1 = JSVal.null
    · rw [if_pos hcond]
      rw [ih (objDelete w kv.1) _ k hrest]
      by_cases hk : k = kv.1
      · have h1 : k ∉ rest.map Prod.fst := by rw [hk]; exact hnot
        rw [if_neg (fun hc => h1 hc.1)]
        have h2 : getProp (objDelete w kv.1) k = JSVal.undef := by
          rw [hk]; exact getProp_objDelete_self w kv.1
        rw [h2]
        have h3 : k ∈ (kv :: rest).map Prod.fst ∧
            (owns w k = false ∨ getProp w k = JSVal.null) := by
          refine ⟨hkeys.2 (Or.inl hk), ?_⟩
          rcases hcond with hno | hnull
          · left
            rw [hk]
            simpa using hno
          · right
            rw [hk]
            exact hnull
        rw [if_pos h3]
      · have h2 : getProp (objDelete w kv.1) k = getProp w k :=
          getProp_objDelete_ne w hk
        have h3 : owns (objDelete w kv.1) k = owns w k := owns_objDelete_ne w hk
        rw [h2, h3]
        by_cases hin : k ∈ rest.map Prod.fst ∧
            (owns w k = false ∨ getProp w k = JSVal.null)
        · rw [if_pos hin, if_pos ⟨hkeys.2 (Or.inr hin.1), hin.2⟩]
        · rw [if_neg hin, if_neg ?side]
          case side =>
            rintro ⟨ha, hb⟩
            rcases hkeys.1 ha with h | h
            · exact hk h
            · exact hin ⟨h, hb⟩
    · rw [if_neg hcond]
      rw [ih w acc₂ k hrest]
      push_neg at hcond
      obtain ⟨howns, hnonull⟩ := hcond
      by_cases hk : k = kv.1
      · have h1 : k ∉ rest.map Prod.fst := by rw [hk]; exact hnot
        rw [if_neg (fun hc => h1 hc.1)]
        have h4 : ¬ (owns w k = false ∨ getProp w k = JSVal.null) := by
          rintro (h | h)
          · rw [hk, howns] at h
            cases h
          · rw [hk] at h
            exact hnonull h
        rw [if_neg (fun hc => h4 hc.2)]
      · by_cases hin : k ∈ rest.map Prod.fst ∧
            (owns w k = false ∨ getProp w k = JSVal.null)
        · rw [if_pos hin, if_pos ⟨hkeys.2 (Or.inr hin.1), hin.2⟩]
        · rw [if_neg hin, if_neg ?side]
          case side =>
            rintro ⟨ha, hb⟩
            rcases hkeys.1 ha with h | h
            · exact hk h
            · exact hin ⟨h, hb⟩

theorem removePass_getProp {prev ns : HState} (hnd : nodupKeys prev) (k : String) :
    getProp (removePass prev ns).1 k
      = if k ∈ prev.map Prod.fst ∧ (owns ns k = false ∨ getProp ns k = JSVal.null)
        then JSVal.undef else getProp ns k := by
  unfold removePass
  exact removePass_getProp_aux prev ns [] k hnd

theorem removePass_owns_aux :
    ∀ (prev : HState) (w : HState) (acc₂ : List (String × JSVal)) (k : String),
      nodupKeys prev →
      owns (prev.foldl (fun acc kv =>
          if ¬ owns acc.1 kv.1 ∨ getProp acc.1 kv.1 = JSVal.null then
            (objDelete acc.1 kv.1, acc.2 ++ [(kv.1, kv.2)])
          else acc) (w, acc₂)).1 k
        = if k ∈ prev.map Prod.fst ∧ (owns w k = false ∨ getProp w k = JSVal.null)
          then false else owns w k := by
  intro prev
  induction prev with
  | nil =>
    intro w acc₂ k _
    rw [if_neg]
    · rfl
    · rintro ⟨hk, _⟩
      simp at hk
  | cons kv rest ih =>
    intro w acc₂ k hnd
    obtain ⟨hnot, hrest⟩ := nodupKeys_cons hnd
    rw [List.foldl_cons]
    have hkeys : k ∈ (kv :: rest).map Prod.fst ↔ (k = kv.1 ∨ k ∈ rest.map Prod.fst) := by
      rw [List.map_cons, List.mem_cons]
    by_cases hcond : ¬ owns (w, acc₂).1 kv.1 = true
        ∨ getProp (w, acc₂).1 kv.1 = JSVal.null
    · rw [if_pos hcond]
      rw [ih (objDelete w kv.1) _ k hrest]
      by_cases hk : k = kv.1
      · have h1 : k ∉ rest.map Prod.fst := by rw [hk]; exact hnot
        rw [if_neg (fun hc => h1 hc.1)]
        have h2 : owns (objDelete w kv.1) k = false := by
          rw [hk]
          by_cases hd : owns (objDelete w kv.1) kv.1 = true
          · exact absurd rfl ((owns_objDelete w kv.1 kv.1).1 hd).2
          · simpa using hd
        rw [h2]
        have h3 : k ∈ (kv :: rest).map Prod.fst ∧
            (owns w k = false ∨ getProp w k = JSVal.null) := by
          refine ⟨hkeys.2 (Or.inl hk), ?_⟩
          rcases hcond with hno | hnull
          · left
            rw [hk]
            simpa using hno
          · right
            rw [hk]
            exact hnull
        rw [if_pos h3]
      · have h3 : owns (objDelete w kv.1) k = owns w k := owns_objDelete_ne w hk
        have h2 : getProp (objDelete w kv.1) k = getProp w k :=
          getProp_objDelete_ne w hk
        rw [h2, h3]
        by_cases hin : k ∈ rest.map Prod.fst ∧
            (owns w k = false ∨ getProp w k = JSVal.null)
        · rw [if_pos hin, if_pos ⟨hkeys.2 (Or.inr hin.1), hin.2⟩]
        · rw [if_neg hin, if_neg ?side]
          case side =>
            rintro ⟨ha, hb⟩
            rcases hkeys.1 ha with h | h
            · exact hk h
            · exact hin ⟨h, hb⟩
    · rw [if_neg hcond]
      rw [ih w acc₂ k hrest]
      push_neg at hcond
      obtain ⟨howns, hnonull⟩ := hcond
      by_cases hk : k = kv.1
      · have h1 : k ∉ rest.map Prod.fst := by rw [hk]; exact hnot
        rw [if_neg (fun hc => h1 hc.1)]
        have h4 : ¬ (owns w k = false ∨ getProp w k = JSVal.null) := by
          rintro (h | h)
          · rw [hk, howns] at h
            cases h
          · rw [hk] at h
            exact hnonull h
        rw [if_neg (fun hc => h4 hc.2)]
      · by_cases hin : k ∈ rest.map Prod.fst ∧
            (owns w k = false ∨ getProp w k = JSVal.null)
        · rw [if_pos hin, if_pos ⟨hkeys.2 (Or.inr hin.1), hin.2⟩]
        · rw [if_neg hin, if_neg ?side]
          case side =>
            rintro ⟨ha, hb⟩
            rcases hkeys.1 ha with h | h
            · exact hk h
            · exact hin ⟨h, hb⟩

theorem removePass_owns {prev ns : HState} (hnd : nodupKeys prev) (k : String) :
    owns (removePass prev ns).1 k
      = if k ∈ prev.map Prod.fst ∧ (owns ns k = false ∨ getProp ns k = JSVal.null)
        then false else owns ns k := by
  unfold removePass
  exact removePass_owns_aux prev ns [] k hnd

theorem nodupKeys_removePass_aux :
    ∀ (prev : HState) (w : HState) (acc₂ : List (String × JSVal)),
      nodupKeys w →
      nodupKeys (prev.foldl (fun acc kv =>
          if ¬ owns acc.1 kv.1 ∨ getProp acc.1 kv.1 = JSVal.null then
            (objDelete acc.1 kv.1, acc.2 ++ [(kv.1, kv.2)])
          else acc) (w, acc₂)).1 := by
  intro prev
  induction prev with
  | nil => intro w acc₂ h; exact h
  | cons kv rest ih =>
    intro w acc₂ h
    rw [List.foldl_cons]
    by_cases hcond : ¬ owns (w, acc₂).1 kv.1 = true
        ∨ getProp (w, acc₂).1 kv.1 = JSVal.null
    · rw [if_pos hcond]
      exact ih _ _ (nodupKeys_objDelete kv.1 h)
    · rw [if_neg hcond]
      exact ih _ _ h

theorem nodupKeys_removePass {prev ns : HState} (h : nodupKeys ns) :
    nodupKeys (removePass prev ns).1 := by
  unfold removePass
  exact nodupKeys_removePass_aux prev ns [] h

theorem mem_objSet {st : HState} {k : String} {v : JSVal} {e : String × JSVal}
    (hm : e ∈ objSet st k v) : e = (k, v) ∨ (e ∈ st ∧ e.1 ≠ k) := by
  unfold objSet at hm
  by_cases h : owns st k = true
  · rw [if_pos h] at hm
    rcases List.mem_map.1 hm with ⟨p, hp, hfp⟩
    by_cases hpk : p.1 = k
    · rw [if_pos (beq_true_of_eq hpk)] at hfp
      exact Or.inl hfp.symm
    · rw [if_neg (not_beq_of_ne hpk)] at hfp
      right
      rw [← hfp]
      exact ⟨hp, hpk⟩
  · rw [if_neg h] at hm
    rcases List.mem_append.1 hm with hm' | hm'
    · right
      refine ⟨hm', ?_⟩
      intro hek
      apply h
      exact owns_eq_true_iff.2 ⟨e, hm', hek⟩
    · exact Or.inl (List.mem_singleton.1 hm')

theorem getProp_eq_null_mem {st : HState} {k : String}
    (h : getProp st k = JSVal.null) : (k, JSVal.null) ∈ st := by
  unfold getProp at h
  cases hf : st.find? (fun p => p.1 == k) with
  | none => rw [hf] at h; cases h
  | some p =>
    rw [hf] at h
    have hp : p.1 = k := by simpa using List.find?_some hf
    have hm := List.mem_of_find?_eq_some hf
    have : p = (k, JSVal.null) := by
      cases p
      simp only at hp h
      rw [hp, h]
    rw [← this]
    exact hm

theorem getProp_ne_undef_owns {st : HState} {k : String}
    (h : getProp st k ≠ JSVal.undef) : owns st k = true := by
  by_cases ho : owns st k = true
  · exact ho
  · have : owns st k = false := by simpa using ho
    exact absurd (getProp_of_owns_false this) h

theorem nullFree_removePass {prev ns : HState}
    (hndp : nodupKeys prev) (hnd : nodupKeys ns)
    (h : ∀ q, getProp ns q = JSVal.null → q ∈ prev.map Prod.fst) :
    nullFree (removePass prev ns).1 := by
  intro kv hm
  intro hnull
  have hmem : getProp (removePass prev ns).1 kv.1 = kv.2 :=
    getProp_mem (nodupKeys_removePass hnd) (by cases kv; exact hm)
  rw [hnull] at hmem
  rw [removePass_getProp hndp] at hmem
  by_cases hc : kv.1 ∈ prev.map Prod.fst ∧
      (owns ns kv.1 = false ∨ getProp ns kv.1 = JSVal.null)
  · rw [if_pos hc] at hmem
    cases hmem
  · rw [if_neg hc] at hmem
    apply hc
    refine ⟨h kv.1 hmem, Or.inr hmem⟩

/-! ## Lemmas about resolveChanges and fireEvents -/

theorem resolveChanges_eq (src : Src) (prev ns : HState) :
    resolveChanges src prev ns
      = if ((changedList prev ns).isEmpty && (removePass prev ns).2.isEmpty) = true
        then ([], prev)
        else (fireEvents src (changedList prev ns) (removePass prev ns).1 prev
                (removePass prev ns).2, (removePass prev ns).1) := rfl

theorem resolveChanges_noop {src : Src} {prev ns : HState}
    (heq : ∀ kv ∈ ns, kv.2 = getProp prev kv.1)
    (hrm : ∀ kv ∈ prev, owns ns kv.1 = true ∧ getProp ns kv.1 ≠ JSVal.null) :
    resolveChanges src prev ns = ([], prev) := by
  rw [resolveChanges_eq]
  rw [changedList_nil_of heq, removePass_id hrm]
  rfl

theorem fireEvents_retag (s t : Src) (ch : List (String × JSVal × JSVal))
    (ns ps : HState) (rm : List (String × JSVal)) :
    (fireEvents s ch ns ps rm).map (retag t) = fireEvents t ch ns ps rm := by
  unfold fireEvents
  simp only [List.map_cons, List.map_append, List.map_map]
  rfl

theorem fireEvents_srcOf (s : Src) (ch : List (String × JSVal × JSVal))
    (ns ps : HState) (rm : List (String × JSVal)) :
    ∀ e ∈ fireEvents s ch ns ps rm, srcOf e = s := by
  intro e he
  simp only [fireEvents, List.cons_append, List.mem_cons, List.mem_append,
    List.mem_map] at he
  rcases he with rfl | (⟨c, _, rfl⟩ | ⟨r, _, rfl⟩) <;> rfl

/-! ## Claim theorems: the in-memory diff pipeline (C1 - C5) -/

/-- C1 counterexample: in Scenario B (state with a mapped to "1" and b mapped
to "2", then `add` of a mapped to null and c mapped to "3"), the nulled key a
DOES appear in the changed component of the fired change event, with newVal
null and prevVal "1" - refuting the claim that a does not appear in changed. -/
theorem C1_counterexample :
    ("a", JSVal.null, JSVal.str "1") ∈
      globalChanged (addOp (ChangeArg.map [("a", JSVal.null), ("c", JSVal.str "3")])
        [("a", JSVal.str "1"), ("b", JSVal.str "2")]).1 := by decide

/-- C1 (amended): in Scenario B the removed component is exactly a mapped to
"1" and the resulting stored state is exactly b mapped to "2" with c mapped
to "3", as claimed, but the changed component also carries the nulled key a
(newVal null, prevVal "1"); the full event trace is the global change event,
a per-key aChange, a per-key cChange, and a per-key aRemove. -/
theorem C1_amended_thm :
    addOp (ChangeArg.map [("a", JSVal.null), ("c", JSVal.str "3")])
        [("a", JSVal.str "1"), ("b", JSVal.str "2")]
      = ([HEvent.change
            [("a", JSVal.null, JSVal.str "1"), ("c", JSVal.str "3", JSVal.undef)]
            [("b", JSVal.str "2"), ("c", JSVal.str "3")]
            [("a", JSVal.str "1"), ("b", JSVal.str "2")]
            [("a", JSVal.str "1")] Src.add,
          HEvent.keyChange "a" JSVal.null (JSVal.str "1") Src.add,
          HEvent.keyChange "c" (JSVal.str "3") JSVal.undef Src.add,
          HEvent.keyRemove "a" (JSVal.str "1") Src.add],
         [("b", JSVal.str "2"), ("c", JSVal.str "3")]) := by decide

/-- C2: evaluation of the code at the failing input. Adding a null-valued key
that is absent from the (empty) state stores the key BOUND TO NULL: the key is
owned by the stored state afterward, contradicting both the claim and the
documented contract of `add` (a null-valued key must be removed). -/
theorem C2_bug_eval :
    (addOp (ChangeArg.map [("a", JSVal.null)]) []).2 = [("a", JSVal.null)]
      ∧ owns (addOp (ChangeArg.map [("a", JSVal.null)]) []).2 "a" = true := by decide

/-- C3 counterexample: calling `add` with key a mapped to null on the empty
state (a is not present) DOES fire notifications - a global change event and a
per-key aChange event - although, as claimed, the removed component is empty.
This refutes the claim that no notification fires at all. -/
theorem C3_counterexample :
    (addOp (ChangeArg.kv "a" JSVal.null) []).1 ≠ []
      ∧ globalRemoved (addOp (ChangeArg.kv "a" JSVal.null) []).1 = [] := by decide

/-- C3 (amended): for every well-formed state (distinct keys, string values)
and key k not present in it, `add(k, null)` produces no entry in removed, but
it does fire a global change event and a per-key kChange event whose changed
component records k with newVal null and prevVal undefined, and it stores k
bound to null. -/
theorem C3_amended_thm (st : HState) (k : String)
    (hnd : nodupKeys st) (hstr : allStrVals st) (hk : owns st k = false) :
    addOp (ChangeArg.kv k JSVal.null) st
      = ([HEvent.change [(k, JSVal.null, JSVal.undef)] (st ++ [(k, JSVal.null)]) st []
            Src.add,
          HEvent.keyChange k JSVal.null JSVal.undef Src.add],
         st ++ [(k, JSVal.null)]) := by
  unfold addOp changeOp
  rw [show argMap (ChangeArg.kv k JSVal.null) = [(k, JSVal.null)] from rfl]
  rw [jsMerge_single]
  have hobj : objSet st k JSVal.null = st ++ [(k, JSVal.null)] := by
    unfold objSet
    rw [if_neg (by simp [hk])]
  rw [hobj]
  have hch : changedList st (st ++ [(k, JSVal.null)]) = [(k, JSVal.null, JSVal.undef)] := by
    rw [changedList_append]
    rw [changedList_nil_of (fun kv hm => (getProp_mem hnd (by cases kv; exact hm)).symm)]
    rw [List.nil_append, changedList_cons]
    have hg : getProp st k = JSVal.undef := getProp_of_owns_false hk
    rw [hg]
    rw [if_pos (by simp)]
    rfl
  have hrm : removePass st (st ++ [(k, JSVal.null)]) = (st ++ [(k, JSVal.null)], []) := by
    apply removePass_id
    intro kv hm
    constructor
    · exact owns_eq_true_iff.2 ⟨kv, List.mem_append.2 (Or.inl hm), rfl⟩
    · have hgv : getProp st kv.1 = kv.2 := getProp_mem hnd (by cases kv; exact hm)
      rw [getProp_append, if_pos (owns_eq_true_iff.2 ⟨kv, hm, rfl⟩), hgv]
      have := hstr kv hm
      cases hv : kv.2 <;> simp [hv, JSVal.isStr] at this ⊢
  rw [resolveChanges_eq, hch, hrm]
  rw [if_neg (by simp)]
  rfl

/-- C3 witness: the amended theorem applied at the concrete state with b
mapped to "2" and the absent key a. -/
theorem C3_amended_witness :
    addOp (ChangeArg.kv "a" JSVal.null) [("b", JSVal.str "2")]
      = ([HEvent.change [("a", JSVal.null, JSVal.undef)]
            [("b", JSVal.str "2"), ("a", JSVal.null)] [("b", JSVal.str "2")] [] Src.add,
          HEvent.keyChange "a" JSVal.null JSVal.undef Src.add],
         [("b", JSVal.str "2"), ("a", JSVal.null)]) :=
  C3_amended_thm [("b", JSVal.str "2")] "a" (by decide) (by decide) (by decide)

/-- C4: `replace` performs exactly the same merge, diff, event-firing and
state-storing steps as `add` - the resulting stored state is identical, the
fired events are identical except that every event of `add` carries source
tag ADD and every event of `replace` carries source tag REPLACE. -/
theorem C4_replace_same_pipeline (a : ChangeArg) (prev : HState) :
    replaceOp a prev
        = (((addOp a prev).1).map (retag Src.replace), (addOp a prev).2)
      ∧ (∀ e ∈ (addOp a prev).1, srcOf e = Src.add)
      ∧ (∀ e ∈ (replaceOp a prev).1, srcOf e = Src.replace) := by
  unfold replaceOp addOp changeOp
  rw [resolveChanges_eq, resolveChanges_eq]
  by_cases h : ((changedList prev (jsMerge prev (argMap a))).isEmpty
      && (removePass prev (jsMerge prev (argMap a))).2.isEmpty) = true
  · rw [if_pos h, if_pos h]
    refine ⟨rfl, ?_, ?_⟩ <;> intro e he <;> cases he
  · rw [if_neg h, if_neg h]
    refine ⟨?_, ?_, ?_⟩
    · rw [fireEvents_retag]
    · exact fireEvents_srcOf Src.add _ _ _ _
    · exact fireEvents_srcOf Src.replace _ _ _ _

/-- C5 counterexample: with k = a and v = null, `add(a, null)` on the empty
state immediately followed by `add(a, null)` again DOES fire notifications on
the second call (a global change event and an aRemove event), although the
candidate state of the second call is value-identical to the stored state for
every key. This refutes the universally quantified claim. -/
theorem C5_counterexample :
    (addOp (ChangeArg.kv "a" JSVal.null)
        (addOp (ChangeArg.kv "a" JSVal.null) []).2).1 ≠ [] := by decide

/-- C5 (amended): the claim holds away from the null corner case. First: for
every state with distinct keys and every value v other than null, a second
`add(k, v)` immediately after a first fires no events and leaves the stored
state unchanged. Second: whenever the previous state is well formed (distinct
keys, string values) and the candidate state read at every key is identical to
the previous state, `_resolveChanges` fires no events and is a no-op. -/
theorem C5_amended_thm :
    (∀ (prev : HState) (k : String) (v : JSVal), nodupKeys prev → v ≠ JSVal.null →
      (addOp (ChangeArg.kv k v) (addOp (ChangeArg.kv k v) prev).2).1 = []
        ∧ (addOp (ChangeArg.kv k v) (addOp (ChangeArg.kv k v) prev).2).2
            = (addOp (ChangeArg.kv k v) prev).2)
    ∧ (∀ (src : Src) (prev ns : HState),
        nodupKeys prev → nodupKeys ns → allStrVals prev →
        (∀ q, getProp ns q = getProp prev q) →
        resolveChanges src prev ns = ([], prev)) := by
  constructor
  · intro prev k v hnd hv
    have harg : argMap (ChangeArg.kv k v) = [(k, v)] := rfl
    have hfirst : addOp (ChangeArg.kv k v) prev
        = resolveChanges Src.add prev (objSet prev k v) := by
      unfold addOp changeOp
      rw [harg, jsMerge_single]
    set ns1 := objSet prev k v with hns1
    by_cases hfire : ((changedList prev ns1).isEmpty
        && (removePass prev ns1).2.isEmpty) = true
    · have h1 : addOp (ChangeArg.kv k v) prev = ([], prev) := by
        rw [hfirst, resolveChanges_eq, if_pos hfire]
      rw [h1]
      show (addOp (ChangeArg.kv k v) prev).1 = []
        ∧ (addOp (ChangeArg.kv k v) prev).2 = prev
      rw [h1]
      exact ⟨rfl, rfl⟩
    · have h1 : addOp (ChangeArg.kv k v) prev
          = (fireEvents Src.add (changedList prev ns1) (removePass prev ns1).1 prev
              (removePass prev ns1).2, (removePass prev ns1).1) := by
        rw [hfirst, resolveChanges_eq, if_neg hfire]
      set w := (removePass prev ns1).1 with hw
      have hndns1 : nodupKeys ns1 := nodupKeys_objSet k v hnd
      have hndw : nodupKeys w := nodupKeys_removePass hndns1
      have hgk : getProp ns1 k = v := getProp_objSet_self prev k v
      have howk : owns ns1 k = true := (owns_objSet prev k v k).2 (Or.inr rfl)
      have hcondk : ¬ (k ∈ prev.map Prod.fst
          ∧ (owns ns1 k = false ∨ getProp ns1 k = JSVal.null)) := by
        rintro ⟨_, h | h⟩
        · rw [howk] at h
          cases h
        · rw [hgk] at h
          exact hv h
      have hgwk : getProp w k = v := by
        rw [hw, removePass_getProp hnd, if_neg hcondk, hgk]
      have howwk : owns w k = true := by
        rw [hw, removePass_owns hnd, if_neg hcondk, howk]
      have hnullw : nullFree w := by
        rw [hw]
        apply nullFree_removePass hnd hndns1
        intro q hq
        by_cases hqk : q = k
        · rw [hqk, hgk] at hq
          exact absurd hq hv
        · rw [getProp_objSet_ne prev v hqk] at hq
          exact List.mem_map.2 ⟨(q, JSVal.null), getProp_eq_null_mem hq, rfl⟩
      have hsecond : addOp (ChangeArg.kv k v) w
          = resolveChanges Src.add w (objSet w k v) := by
        unfold addOp changeOp
        rw [harg, jsMerge_single]
      have hnoop : resolveChanges Src.add w (objSet w k v) = ([], w) := by
        apply resolveChanges_noop
        · intro kv hm
          rcases mem_objSet hm with rfl | ⟨hmw, hne⟩
          · rw [hgwk]
          · exact (getProp_mem hndw (by cases kv; exact hmw)).symm
        · intro kv hm
          constructor
          · exact (owns_objSet w k v kv.1).2
              (Or.inl (owns_eq_true_iff.2 ⟨kv, hm, rfl⟩))
          · by_cases hqk : kv.1 = k
            · rw [hqk, getProp_objSet_self]
              exact hv
            · rw [getProp_objSet_ne w v hqk]
              have hgv : getProp w kv.1 = kv.2 := getProp_mem hndw (by cases kv; exact hm)
              rw [hgv]
              exact hnullw kv hm
      rw [h1]
      rw [show (fireEvents Src.add (changedList prev ns1) w prev
            (removePass prev ns1).2, w).2 = w from rfl]
      rw [hsecond, hnoop]
      exact ⟨rfl, rfl⟩
  · intro src prev ns hndp hndn hstr hval
    apply resolveChanges_noop
    · intro kv hm
      have : getProp ns kv.1 = kv.2 := getProp_mem hndn (by cases kv; exact hm)
      rw [← this, hval kv.1]
    · intro kv hm
      have hgv : getProp prev kv.1 = kv.2 := getProp_mem hndp (by cases kv; exact hm)
      have hstrv := hstr kv hm
      have hns : getProp ns kv.1 = kv.2 := by rw [hval kv.1, hgv]
      constructor
      · apply getProp_ne_undef_owns
        rw [hns]
        cases hv : kv.2 <;> simp [hv, JSVal.isStr] at hstrv ⊢
      · rw [hns]
        cases hv : kv.2 <;> simp [hv, JSVal.isStr] at hstrv ⊢

/-- C5 witness: the amended theorem applied concretely - a repeated
`add(a, "1")` on the state with b mapped to "2" is silent the second time, and
a no-change resolve on the state with a mapped to "1" fires nothing. -/
theorem C5_amended_witness :
    ((addOp (ChangeArg.kv "a" (JSVal.str "1"))
        (addOp (ChangeArg.kv "a" (JSVal.str "1")) [("b", JSVal.str "2")]).2).1 = []
      ∧ (addOp (ChangeArg.kv "a" (JSVal.str "1"))
          (addOp (ChangeArg.kv "a" (JSVal.str "1")) [("b", JSVal.str "2")]).2).2
          = (addOp (ChangeArg.kv "a" (JSVal.str "1")) [("b", JSVal.str "2")]).2)
    ∧ resolveChanges Src.add [("a", JSVal.str "1")] [("a", JSVal.str "1")]
        = ([], [("a", JSVal.str "1")]) :=
  ⟨C5_amended_thm.1 [("b", JSVal.str "2")] "a" (JSVal.str "1") (by decide) (by decide),
   C5_amended_thm.2 Src.add [("a", JSVal.str "1")] [("a", JSVal.str "1")]
     (by decide) (by decide) (by decide) (fun q => rfl)⟩

/-! ## Claim theorems: hash codec concrete behavior (C8, C10) -/

/-- C8: with prefix "!", the fragment "#!foo=bar&baz=quux" decodes to exactly
foo mapped to "bar" and baz mapped to "quux"; the prefix is also stripped when
it occurs at the very start ("!foo=..."); a segment without "=" ("junk") is
skipped rather than an error; and empty input yields an empty map. -/
theorem C8_parse_scenario :
    History.parseHash "!" "#!foo=bar&baz=quux"
        = some [("foo", JSVal.str "bar"), ("baz", JSVal.str "quux")]
      ∧ History.parseHash "!" "!foo=bar&baz=quux"
        = some [("foo", JSVal.str "bar"), ("baz", JSVal.str "quux")]
      ∧ History.parseHash "!" "#!foo=bar&junk" = some [("foo", JSVal.str "bar")]
      ∧ History.parseHash "!" "" = some [] := by decide

/-- C10 counterexample: the fragment "a==b" decodes to a map binding the key a
to the EMPTY string (the regex matches "a==b", split on "=" takes the empty
piece between the two "=" as the value), refuting the claim that the decoded
map never binds a key to the empty string. -/
theorem C10_counterexample :
    History.parseHash "" "a==b" = some [("a", JSVal.str "")] := by decide

/-- C10 (amended): a pair of the form "key=" with no value characters before
the next "&" or the end of the input is indeed dropped entirely ("x=&y=2"
keeps only y, "x=" alone gives the empty map), but a key CAN be bound to the
empty string when a segment carries two "=" characters, as in "a==b". -/
theorem C10_amended_thm :
    History.parseHash "" "x=&y=2" = some [("y", JSVal.str "2")]
      ∧ History.parseHash "" "x=" = some []
      ∧ History.parseHash "" "a==b" = some [("a", JSVal.str "")] := by decide

/-- C9 counterexample: decoding the fragment "a==b" yields the pair a mapped
to the empty string, but re-encoding that map produces "a=" whose decoding is
the EMPTY map - the pair is lost, refuting the claim that decode-then-encode
preserves every key/value pair. (Also: "==x" decodes to a pair with an empty
key, which is likewise lost on re-encoding.) -/
theorem C9_counterexample :
    History.parseHash "" "a==b" = some [("a", JSVal.str "")]
      ∧ History.parseHash "" (History.createHash [("a", JSVal.str "")]) = some []
      ∧ History.parseHash "" "==x" = some [("", JSVal.str "")]
      ∧ History.parseHash "" (History.createHash [("", JSVal.str "x")]) = some [] := by
  decide

/-! ## Claim theorems: the hash synchronizer (C6, C7) -/

/-- C6 counterexample: an external fragment change to "a=%41" (a valid but
non-canonical encoding of a mapped to "A"), processed with source HASH from
the empty state while the location fragment already reads "a=%41", DOES invoke
a fragment write: the re-encoded state "a=A" differs from the raw fragment, so
setHash("a=A") is called. This refutes the claim that a HASH-sourced change
never triggers a fragment write. -/
theorem C6_counterexample :
    (afterHashChange "" "a=%41" [] "a=%41").map writesOf
      = some [FragWrite.setH "a=A"] := by decide

theorem storeState_fst (pfx : String) (src : Src) (ns : HState) (loc : String) :
    (History.storeState pfx src ns loc).1 = ns := by
  unfold History.storeState
  by_cases h : History.getHash pfx loc ≠ History.createHash ns
  · rw [if_pos h]
    by_cases hs : src = Src.replace
    · rw [if_pos hs]
    · rw [if_neg hs]
  · rw [if_neg h]

theorem storeState_writes_eq {pfx : String} {ns : HState} {loc : String}
    (h : History.getHash pfx loc = History.createHash ns) (src : Src) :
    History.storeState pfx src ns loc = (ns, loc, []) := by
  unfold History.storeState
  rw [if_neg (by simpa using h)]

theorem storeState_writes_ne {pfx : String} {ns : HState} {loc : String}
    (h : History.getHash pfx loc ≠ History.createHash ns) :
    History.storeState pfx Src.replace ns loc
        = (ns, writeLoc pfx (History.createHash ns), [FragWrite.replH (History.createHash ns)])
      ∧ History.storeState pfx Src.add ns loc
        = (ns, writeLoc pfx (History.createHash ns), [FragWrite.setH (History.createHash ns)]) := by
  constructor
  · unfold History.storeState
    rw [if_pos h, if_pos rfl]
  · unfold History.storeState
    rw [if_pos h, if_neg (by simp)]

theorem histResolve_eq (pfx : String) (src : Src) (prev ns : HState) (loc : String) :
    histResolve pfx src prev ns loc
      = if ((changedList prev ns).isEmpty && (removePass prev ns).2.isEmpty) = true
        then ([], prev, loc, [])
        else (fireEvents src (changedList prev ns) (removePass prev ns).1 prev
                (removePass prev ns).2,
              History.storeState pfx src (removePass prev ns).1 loc) := rfl

theorem histResolve_noop {pfx : String} {src : Src} {prev ns : HState} {loc : String}
    (heq : ∀ kv ∈ ns, kv.2 = getProp prev kv.1)
    (hrm : ∀ kv ∈ prev, owns ns kv.1 = true ∧ getProp ns kv.1 ≠ JSVal.null) :
    histResolve pfx src prev ns loc = ([], prev, loc, []) := by
  rw [histResolve_eq, changedList_nil_of heq, removePass_id hrm]
  rfl

theorem objSet_allStr {st : HState} {k : String} {v : String}
    (h : allStrVals st) : allStrVals (objSet st k (JSVal.str v)) := by
  intro kv hm
  rcases mem_objSet hm with rfl | ⟨hm', _⟩
  · rfl
  · exact h kv hm'

theorem objSet_nodup_any {st : HState} (k : String) (v : JSVal)
    (h : nodupKeys st) : nodupKeys (objSet st k v) := nodupKeys_objSet k v h

theorem parse_step_some {params p' : HState} {m : List Char}
    (h : (match splitOnEq m with
      | p0 :: p1 :: _ =>
        match History.decode ⟨p0⟩, History.decode ⟨p1⟩ with
        | some k, some v => some (objSet params k (JSVal.str v))
        | _, _ => none
      | _ => none) = some p') :
    ∃ k v, p' = objSet params k (JSVal.str v) := by
  rcases hsp : splitOnEq m with _ | ⟨p0, _ | ⟨p1, ps⟩⟩
  · rw [hsp] at h
    cases h
  · rw [hsp] at h
    cases h
  · rw [hsp] at h
    have h' : (match History.decode ⟨p0⟩, History.decode ⟨p1⟩ with
        | some k, some v => some (objSet params k (JSVal.str v))
        | _, _ => none) = some p' := h
    rcases hd0 : History.decode ⟨p0⟩ with _ | k
    · rw [hd0] at h'
      cases h'
    · rcases hd1 : History.decode ⟨p1⟩ with _ | v
      · rw [hd0, hd1] at h'
        cases h'
      · rw [hd0, hd1] at h'
        exact ⟨k, v, (Option.some_inj.1 h').symm⟩

theorem parse_fold_allStr :
    ∀ (ms : List (List Char)) (params st : HState),
      List.foldlM (fun (params : HState) (m : List Char) =>
        (match splitOnEq m with
          | p0 :: p1 :: _ =>
            match History.decode ⟨p0⟩, History.decode ⟨p1⟩ with
            | some k, some v => some (objSet params k (JSVal.str v))
            | _, _ => none
          | _ => none : Option HState)) params ms = some st →
      allStrVals params → allStrVals st := by
  intro ms
  induction ms with
  | nil =>
    intro params st h hp
    simp only [List.foldlM] at h
    cases h
    exact hp
  | cons m rest ih =>
    intro params st h hp
    simp only [List.foldlM] at h
    rcases hstep : (match splitOnEq m with
      | p0 :: p1 :: _ =>
        match History.decode ⟨p0⟩, History.decode ⟨p1⟩ with
        | some k, some v => some (objSet params k (JSVal.str v))
        | _, _ => none
      | _ => none : Option HState) with _ | p'
    · rw [hstep] at h
      simp only [Option.bind_eq_bind, Option.none_bind] at h
      cases h
    · rw [hstep] at h
      simp only [Option.bind_eq_bind, Option.some_bind] at h
      obtain ⟨k, v, rfl⟩ := parse_step_some hstep
      exact ih _ _ h (objSet_allStr hp)

theorem parseHash_allStr {pfx h : String} {st : HState}
    (hp : History.parseHash pfx h = some st) : allStrVals st := by
  unfold History.parseHash at hp
  exact parse_fold_allStr _ [] st hp (by intro kv hm; cases hm)

theorem parse_fold_nodup :
    ∀ (ms : List (List Char)) (params st : HState),
      List.foldlM (fun (params : HState) (m : List Char) =>
        (match splitOnEq m with
          | p0 :: p1 :: _ =>
            match History.decode ⟨p0⟩, History.decode ⟨p1⟩ with
            | some k, some v => some (objSet params k (JSVal.str v))
            | _, _ => none
          | _ => none : Option HState)) params ms = some st →
      nodupKeys params → nodupKeys st := by
  intro ms
  induction ms with
  | nil =>
    intro params st h hp
    simp only [List.foldlM] at h
    cases h
    exact hp
  | cons m rest ih =>
    intro params st h hp
    simp only [List.foldlM] at h
    rcases hstep : (match splitOnEq m with
      | p0 :: p1 :: _ =>
        match History.decode ⟨p0⟩, History.decode ⟨p1⟩ with
        | some k, some v => some (objSet params k (JSVal.str v))
        | _, _ => none
      | _ => none : Option HState) with _ | p'
    · rw [hstep] at h
      simp only [Option.bind_eq_bind, Option.none_bind] at h
      cases h
    · rw [hstep] at h
      simp only [Option.bind_eq_bind, Option.some_bind] at h
      obtain ⟨k, v, rfl⟩ := parse_step_some hstep
      exact ih _ _ h (objSet_nodup_any k (JSVal.str v) hp)

theorem parseHash_nodup {pfx h : String} {st : HState}
    (hp : History.parseHash pfx h = some st) : nodupKeys st := by
  unfold History.parseHash at hp
  exact parse_fold_nodup _ [] st hp (by unfold nodupKeys; simp)

/-- C6 (amended): a state change sourced HASH performs no fragment write
whenever the current location fragment equals the re-encoding of the parsed
state - in particular for every fragment produced by encode itself. (When the
raw fragment differs from the re-encoding, as with a non-canonically encoded
external value, a setHash write does occur; see the counterexample.) -/
theorem C6_amended_thm (pfx newHash : String) (prev : HState) (loc : String)
    (st : HState) (hp : History.parseHash pfx newHash = some st)
    (hcanon : History.getHash pfx loc = History.createHash st) :
    (afterHashChange pfx newHash prev loc).map writesOf = some [] := by
  unfold afterHashChange
  rw [hp]
  show some (writesOf (histResolve pfx Src.hash prev st loc)) = some []
  have hwr : writesOf (histResolve pfx Src.hash prev st loc) = [] := by
    rw [histResolve_eq]
    by_cases hfire : ((changedList prev st).isEmpty
        && (removePass prev st).2.isEmpty) = true
    · rw [if_pos hfire]
      rfl
    · rw [if_neg hfire]
      have hstr : allStrVals st := parseHash_allStr hp
      have hfst : (removePass prev st).1 = st :=
        removePass_fst_id (fun kv _ => Or.inr (getProp_allStr hstr kv.1))
      rw [hfst, storeState_writes_eq hcanon]
      rfl
  rw [hwr]

/-- C6 witness: the amended theorem applied at the canonical external fragment
"a=1" arriving over the empty state. -/
theorem C6_amended_witness :
    (afterHashChange "" "a=1" [] "a=1").map writesOf = some [] :=
  C6_amended_thm "" "a=1" [] "a=1" [("a", JSVal.str "1")] (by decide) (by decide)

/-- C7: on every store mutation of the hash-backed store, the encoded new
state is compared with the current fragment: if they are equal no write
occurs (for any source); if they differ, source REPLACE calls replaceHash and
source ADD calls setHash, both with the encoded state. Moreover (Scenario D) a
second `replace` with the same resulting state fires no events and performs
zero fragment writes. -/
theorem C7_store_mutation :
    (∀ (pfx : String) (ns : HState) (loc : String),
        History.getHash pfx loc = History.createHash ns →
        ∀ src, (History.storeState pfx src ns loc).2.2 = [])
    ∧ (∀ (pfx : String) (ns : HState) (loc : String),
        History.getHash pfx loc ≠ History.createHash ns →
        (History.storeState pfx Src.replace ns loc).2.2
            = [FragWrite.replH (History.createHash ns)]
          ∧ (History.storeState pfx Src.add ns loc).2.2
            = [FragWrite.setH (History.createHash ns)])
    ∧ (∀ (pfx : String) (prev : HState) (loc : String) (m : HState),
        nodupKeys prev → nodupKeys m → allStrVals m →
        histReplace pfx (ChangeArg.map m)
            (histReplace pfx (ChangeArg.map m) prev loc).2.1
            (histReplace pfx (ChangeArg.map m) prev loc).2.2.1
          = ([], (histReplace pfx (ChangeArg.map m) prev loc).2.1,
             (histReplace pfx (ChangeArg.map m) prev loc).2.2.1, [])) := by
  refine ⟨?_, ?_, ?_⟩
  · intro pfx ns loc h src
    rw [storeState_writes_eq h src]
  · intro pfx ns loc h
    exact ⟨by rw [(storeState_writes_ne h).1], by rw [(storeState_writes_ne h).2]⟩
  · intro pfx prev loc m hndp hndm hstrm
    set ns1 := jsMerge prev m with hns1
    have hfirst : histReplace pfx (ChangeArg.map m) prev loc
        = histResolve pfx Src.replace prev ns1 loc := rfl
    by_cases hfire : ((changedList prev ns1).isEmpty
        && (removePass prev ns1).2.isEmpty) = true
    · have h1 : histReplace pfx (ChangeArg.map m) prev loc = ([], prev, loc, []) := by
        rw [hfirst, histResolve_eq, if_pos hfire]
      rw [h1]
      show histReplace pfx (ChangeArg.map m) prev loc = ([], prev, loc, [])
      exact h1
    · set w := (removePass prev ns1).1 with hw
      have h1 : histReplace pfx (ChangeArg.map m) prev loc
          = (fireEvents Src.replace (changedList prev ns1) w prev
              (removePass prev ns1).2,
             History.storeState pfx Src.replace w loc) := by
        rw [hfirst, histResolve_eq, if_neg hfire]
      have hmem : (histReplace pfx (ChangeArg.map m) prev loc).2.1 = w := by
        rw [h1]
        exact storeState_fst pfx Src.replace w loc
      have hnd1 : nodupKeys ns1 := by
        rw [hns1]
        exact nodupKeys_jsMerge m hndp
      have hndw : nodupKeys w := by
        rw [hw]
        exact nodupKeys_removePass hnd1
      have hnullw : nullFree w := by
        rw [hw]
        apply nullFree_removePass hndp hnd1
        intro q hq
        rw [hns1] at hq
        by_cases ho : owns m q = true
        · rw [getProp_jsMerge_of_owns hndm ho] at hq
          exact absurd hq (getProp_allStr hstrm q)
        · have ho' : owns m q = false := by simpa using ho
          rw [getProp_jsMerge_of_not_owns ho'] at hq
          exact List.mem_map.2 ⟨(q, JSVal.null), getProp_eq_null_mem hq, rfl⟩
      have hgw : ∀ q, owns m q = true → getProp w q = getProp m q := by
        intro q ho
        have hg1 : getProp ns1 q = getProp m q := by
          rw [hns1]
          exact getProp_jsMerge_of_owns hndm ho
        have how1 : owns ns1 q = true := by
          rw [hns1]
          exact (owns_jsMerge prev m q).2 (Or.inr ho)
        have hcond : ¬(q ∈ prev.map Prod.fst
            ∧ (owns ns1 q = false ∨ getProp ns1 q = JSVal.null)) := by
          rintro ⟨_, hc | hc⟩
          · rw [how1] at hc
            cases hc
          · rw [hg1] at hc
            exact getProp_allStr hstrm q hc
        rw [hw, removePass_getProp hndp, if_neg hcond, hg1]
      have hnoop : ∀ loc2, histResolve pfx Src.replace w (jsMerge w m) loc2
          = ([], w, loc2, []) := by
        intro loc2
        apply histResolve_noop
        · intro kv hm2
          have hnd2 : nodupKeys (jsMerge w m) := nodupKeys_jsMerge m hndw
          have hgv : getProp (jsMerge w m) kv.1 = kv.2 :=
            getProp_mem hnd2 (by cases kv; exact hm2)
          rw [← hgv]
          by_cases ho : owns m kv.1 = true
          · rw [getProp_jsMerge_of_owns hndm ho, ← hgw kv.1 ho]
          · have ho' : owns m kv.1 = false := by simpa using ho
            rw [getProp_jsMerge_of_not_owns ho']
        · intro kv hm2
          constructor
          · exact (owns_jsMerge w m kv.1).2
              (Or.inl (owns_eq_true_iff.2 ⟨kv, hm2, rfl⟩))
          · by_cases ho : owns m kv.1 = true
            · rw [getProp_jsMerge_of_owns hndm ho]
              exact getProp_allStr hstrm kv.1
            · have ho' : owns m kv.1 = false := by simpa using ho
              have hgv : getProp w kv.1 = kv.2 :=
                getProp_mem hndw (by cases kv; exact hm2)
              rw [getProp_jsMerge_of_not_owns ho', hgv]
              exact hnullw kv hm2
      rw [hmem]
      show histResolve pfx Src.replace w (jsMerge w m)
          (histReplace pfx (ChangeArg.map m) prev loc).2.2.1
        = ([], w, (histReplace pfx (ChangeArg.map m) prev loc).2.2.1, [])
      exact hnoop _

/-- C7 witness: the three parts applied concretely - equal fragment means no
write, differing fragment means replaceHash under REPLACE and setHash under
ADD, and a repeated identical `replace` is fully silent. -/
theorem C7_store_mutation_witness :
    (History.storeState "" Src.add [("a", JSVal.str "1")] "a=1").2.2 = []
      ∧ (History.storeState "" Src.replace [("a", JSVal.str "1")] "").2.2
          = [FragWrite.replH "a=1"]
      ∧ (History.storeState "" Src.add [("a", JSVal.str "1")] "").2.2
          = [FragWrite.setH "a=1"]
      ∧ histReplace "" (ChangeArg.map [("a", JSVal.str "1")])
            (histReplace "" (ChangeArg.map [("a", JSVal.str "1")]) [] "").2.1
            (histReplace "" (ChangeArg.map [("a", JSVal.str "1")]) [] "").2.2.1
          = ([], (histReplace "" (ChangeArg.map [("a", JSVal.str "1")]) [] "").2.1,
             (histReplace "" (ChangeArg.map [("a", JSVal.str "1")]) [] "").2.2.1, []) :=
  ⟨C7_store_mutation.1 "" [("a", JSVal.str "1")] "a=1" (by decide) Src.add,
   (C7_store_mutation.2.1 "" [("a", JSVal.str "1")] "" (by decide)).1,
   (C7_store_mutation.2.1 "" [("a", JSVal.str "1")] "" (by decide)).2,
   C7_store_mutation.2.2 "" [] "" [("a", JSVal.str "1")] (by decide) (by decide)
     (by decide)⟩

/-! ## Decoder structure lemmas -/

theorem decodeOne_plain {c : Char} (h : c ≠ '%') (rest : List Char) :
    decodeOne (c :: rest) = some (c, rest) := by
  simp only [decodeOne]
  rw [if_neg h]

theorem decodeOne_esc (rest : List Char) :
    decodeOne ('%' :: rest) = escDecode rest := by
  simp only [decodeOne]
  simp

theorem decodeAux_cons (fuel : Nat) (c : Char) (rest : List Char) :
    decodeAux (fuel + 1) (c :: rest)
      = match decodeOne (c :: rest) with
        | some p => (decodeAux fuel p.2).map (fun t => p.1 :: t)
        | none => none := by
  simp only [decodeAux]

set_option maxRecDepth 8000 in
theorem contEsc_suffix {l : List Char} {x : Nat × List Char}
    (h : contEsc l = some x) : x.2.length + 3 = l.length := by
  unfold contEsc at h
  split at h
  · rename_i p g1 g2 rest
    split at h
    · rw [Option.bind_eq_some] at h
      obtain ⟨a, _, h⟩ := h
      rw [Option.bind_eq_some] at h
      obtain ⟨b, _, h⟩ := h
      split at h
      · cases h
        simp [List.length_cons]
      · cases h
    · cases h
  · cases h

set_option maxRecDepth 8000 in
theorem escDecode_suffix {l : List Char} {p : Char × List Char}
    (h : escDecode l = some p) : p.2.length ≤ l.length := by
  unfold escDecode at h
  split at h
  · rename_i h1 h2 rest1
    rw [Option.bind_eq_some] at h
    obtain ⟨a, _, h⟩ := h
    rw [Option.bind_eq_some] at h
    obtain ⟨b, _, h⟩ := h
    split at h
    · cases h
      simp only [List.length_cons]
      omega
    · split at h
      · rw [Option.bind_eq_some] at h
        obtain ⟨x2, hx2, h⟩ := h
        cases h
        have t2 := contEsc_suffix hx2
        simp only [List.length_cons]
        omega
      · split at h
        · rw [Option.bind_eq_some] at h
          obtain ⟨x2, hx2, h⟩ := h
          rw [Option.bind_eq_some] at h
          obtain ⟨x3, hx3, h⟩ := h
          split at h
          · cases h
            have t2 := contEsc_suffix hx2
            have t3 := contEsc_suffix hx3
            simp only [List.length_cons]
            omega
          · cases h
        · split at h
          · rw [Option.bind_eq_some] at h
            obtain ⟨x2, hx2, h⟩ := h
            rw [Option.bind_eq_some] at h
            obtain ⟨x3, hx3, h⟩ := h
            rw [Option.bind_eq_some] at h
            obtain ⟨x4, hx4, h⟩ := h
            split at h
            · cases h
              have t2 := contEsc_suffix hx2
              have t3 := contEsc_suffix hx3
              have t4 := contEsc_suffix hx4
              simp only [List.length_cons]
              omega
            · cases h
          · cases h
  · cases h

theorem decodeOne_suffix {l : List Char} {p : Char × List Char}
    (h : decodeOne l = some p) : p.2.length < l.length := by
  cases l with
  | nil => cases h
  | cons c rest =>
    by_cases hc : c = '%'
    · rw [hc, decodeOne_esc] at h
      have := escDecode_suffix h
      simp only [List.length_cons]
      omega
    · rw [decodeOne_plain hc] at h
      cases h
      simp only [List.length_cons]
      omega

theorem decodeAux_congr :
    ∀ (n : Nat) (l : List Char), l.length ≤ n →
      ∀ f₁ f₂, l.length < f₁ → l.length < f₂ → decodeAux f₁ l = decodeAux f₂ l := by
  intro n
  induction n with
  | zero =>
    intro l hl f₁ f₂ h1 h2
    have hnil : l = [] := List.eq_nil_of_length_eq_zero (Nat.le_zero.1 hl)
    subst hnil
    cases f₁ with
    | zero => cases h1
    | succ a =>
      cases f₂ with
      | zero => cases h2
      | succ b => rfl
  | succ m ih =>
    intro l hl f₁ f₂ h1 h2
    cases l with
    | nil =>
      cases f₁ with
      | zero => cases h1
      | succ a =>
        cases f₂ with
        | zero => cases h2
        | succ b => rfl
    | cons c rest =>
      have hcl : (c :: rest).length = rest.length + 1 := rfl
      cases f₁ with
      | zero => cases h1
      | succ a =>
        cases f₂ with
        | zero => cases h2
        | succ b =>
          rw [decodeAux_cons a, decodeAux_cons b]
          cases hone : decodeOne (c :: rest) with
          | none => rfl
          | some p =>
            have hlen := decodeOne_suffix hone
            rw [hcl] at hlen hl h1 h2
            have heq : decodeAux a p.2 = decodeAux b p.2 := by
              apply ih p.2
              · omega
              · omega
              · omega
            show (decodeAux a p.2).map (fun t => p.1 :: t)
              = (decodeAux b p.2).map (fun t => p.1 :: t)
            rw [heq]

theorem decodeAux_eq_decodeChars {l : List Char} {f : Nat} (h : l.length < f) :
    decodeAux f l = decodeChars l :=
  decodeAux_congr l.length l (Nat.le_refl _) f (l.length + 1) h (Nat.lt_succ_self _)

theorem decodeChars_cons (c : Char) (rest : List Char) :
    decodeChars (c :: rest)
      = match decodeOne (c :: rest) with
        | some p => (decodeChars p.2).map (fun t => p.1 :: t)
        | none => none := by
  unfold decodeChars
  have hcl : (c :: rest).length = rest.length + 1 := rfl
  rw [hcl, decodeAux_cons]
  cases hone : decodeOne (c :: rest) with
  | none => rfl
  | some p =>
    have hlen := decodeOne_suffix hone
    rw [hcl] at hlen
    show (decodeAux (rest.length + 1) p.2).map (fun t => p.1 :: t)
      = (decodeChars p.2).map (fun t => p.1 :: t)
    rw [decodeAux_eq_decodeChars (by omega)]

/-! ## Hex digit and character class facts -/

theorem hexVal_hexDigitChar : ∀ n, n < 16 → hexVal (hexDigitChar n) = some n := by
  decide

theorem hexDigitChar_ne_pct : ∀ n, n < 16 → hexDigitChar n ≠ '%' := by decide

theorem hexDigitChar_ne_plus : ∀ n, n < 16 → hexDigitChar n ≠ '+' := by decide

theorem hexDigitChar_good : ∀ n, n < 16 →
    (g1ok (hexDigitChar n) = true ∧ hexDigitChar n ≠ '=') := by decide

theorem hexDigitChar_eq_two : ∀ n, n < 16 → (hexDigitChar n = '2' ↔ n = 2) := by
  decide

theorem hexDigitChar_eq_zero : ∀ n, n < 16 → (hexDigitChar n = '0' ↔ n = 0) := by
  decide

theorem char_valid_range (c : Char) :
    c.toNat < 55296 ∨ (57343 < c.toNat ∧ c.toNat < 1114112) := c.valid

theorem char_toNat_inj {c d : Char} (h : c.toNat = d.toNat) : c = d := by
  rw [← Char.ofNat_toNat c, ← Char.ofNat_toNat d, h]

theorem unres_ne {c : Char} (h : isUnreserved c = true) :
    c ≠ '%' ∧ c ≠ ' ' ∧ c ≠ '+' ∧ c ≠ '=' ∧ g1ok c = true := by
  have hne : ∀ d : Char, isUnreserved d = false → c ≠ d := by
    intro d hd he
    rw [he, hd] at h
    cases h
  refine ⟨hne '%' (by decide), hne ' ' (by decide), hne '+' (by decide),
    hne '=' (by decide), ?_⟩
  have h1 := hne '?' (by decide)
  have h2 := hne '#' (by decide)
  have h3 := hne '&' (by decide)
  simp [g1ok, h1, h2, h3]

/-! ## Shapes of encodeChar -/

theorem encodeChar_unres {c : Char} (h : isUnreserved c = true) :
    encodeChar c = [c] := by
  unfold encodeChar
  rw [if_pos h]

theorem encodeChar_b1 {c : Char} (h : ¬ isUnreserved c = true)
    (hn : c.toNat < 128) :
    encodeChar c = ['%', hexDigitChar (c.toNat / 16), hexDigitChar (c.toNat % 16)] := by
  unfold encodeChar utf8Bytes
  rw [if_neg h]
  simp only []
  rw [if_pos hn]
  simp [pctTriple]

theorem encodeChar_b2 {c : Char} (h : ¬ isUnreserved c = true)
    (hn : 128 ≤ c.toNat) (hn2 : c.toNat < 2048) :
    encodeChar c = ['%', hexDigitChar ((192 + c.toNat / 64) / 16),
      hexDigitChar ((192 + c.toNat / 64) % 16),
      '%', hexDigitChar ((128 + c.toNat % 64) / 16),
      hexDigitChar ((128 + c.toNat % 64) % 16)] := by
  unfold encodeChar utf8Bytes
  rw [if_neg h]
  simp only []
  rw [if_neg (by omega), if_pos hn2]
  simp [pctTriple]

theorem encodeChar_b3 {c : Char} (h : ¬ isUnreserved c = true)
    (hn : 2048 ≤ c.toNat) (hn2 : c.toNat < 65536) :
    encodeChar c = ['%', hexDigitChar ((224 + c.toNat / 4096) / 16),
      hexDigitChar ((224 + c.toNat / 4096) % 16),
      '%', hexDigitChar ((128 + c.toNat / 64 % 64) / 16),
      hexDigitChar ((128 + c.toNat / 64 % 64) % 16),
      '%', hexDigitChar ((128 + c.toNat % 64) / 16),
      hexDigitChar ((128 + c.toNat % 64) % 16)] := by
  unfold encodeChar utf8Bytes
  rw [if_neg h]
  simp only []
  rw [if_neg (by omega), if_neg (by omega), if_pos hn2]
  simp [pctTriple]

theorem encodeChar_b4 {c : Char} (h : ¬ isUnreserved c = true)
    (hn : 65536 ≤ c.toNat) :
    encodeChar c = ['%', hexDigitChar ((240 + c.toNat / 262144) / 16),
      hexDigitChar ((240 + c.toNat / 262144) % 16),
      '%', hexDigitChar ((128 + c.toNat / 4096 % 64) / 16),
      hexDigitChar ((128 + c.toNat / 4096 % 64) % 16),
      '%', hexDigitChar ((128 + c.toNat / 64 % 64) / 16),
      hexDigitChar ((128 + c.toNat / 64 % 64) % 16),
      '%', hexDigitChar ((128 + c.toNat % 64) / 16),
      hexDigitChar ((128 + c.toNat % 64) % 16)] := by
  unfold encodeChar utf8Bytes
  rw [if_neg h]
  simp only []
  rw [if_neg (by omega), if_neg (by omega), if_neg (by omega)]
  simp [pctTriple]

/-! ## escDecode computes on encoded blocks -/

theorem escDecode_1 {b : Nat} (hb : b < 128) (Y : List Char) :
    escDecode (hexDigitChar (b / 16) :: hexDigitChar (b % 16) :: Y)
      = some (Char.ofNat b, Y) := by
  simp only [escDecode]
  rw [hexVal_hexDigitChar _ (by omega), hexVal_hexDigitChar _ (by omega)]
  simp only [Option.some_bind]
  rw [Nat.div_add_mod]
  rw [if_pos hb]

theorem contEsc_comp {b : Nat} (hb1 : 128 ≤ b) (hb2 : b < 192) (Y : List Char) :
    contEsc ('%' :: hexDigitChar (b / 16) :: hexDigitChar (b % 16) :: Y)
      = some (b - 128, Y) := by
  simp only [contEsc]
  rw [if_pos trivial]
  rw [hexVal_hexDigitChar _ (by omega), hexVal_hexDigitChar _ (by omega)]
  simp only [Option.some_bind]
  rw [Nat.div_add_mod]
  rw [if_pos ⟨hb1, hb2⟩]

theorem escDecode_2 {b1 b2 : Nat} (h1a : 194 ≤ b1) (h1b : b1 ≤ 223)
    (h2a : 128 ≤ b2) (h2b : b2 < 192) (Y : List Char) :
    escDecode (hexDigitChar (b1 / 16) :: hexDigitChar (b1 % 16)
        :: '%' :: hexDigitChar (b2 / 16) :: hexDigitChar (b2 % 16) :: Y)
      = some (Char.ofNat ((b1 - 192) * 64 + (b2 - 128)), Y) := by
  simp only [escDecode]
  rw [hexVal_hexDigitChar _ (by omega), hexVal_hexDigitChar _ (by omega)]
  simp only [Option.some_bind]
  rw [Nat.div_add_mod]
  rw [if_neg (by omega), if_pos ⟨h1a, h1b⟩]
  rw [contEsc_comp h2a h2b]
  simp only [Option.some_bind]

theorem escDecode_3 {b1 b2 b3 : Nat} (h1a : 224 ≤ b1) (h1b : b1 ≤ 239)
    (h2a : 128 ≤ b2) (h2b : b2 < 192) (h3a : 128 ≤ b3) (h3b : b3 < 192)
    (hval : 2048 ≤ (b1 - 224) * 4096 + (b2 - 128) * 64 + (b3 - 128)
      ∧ ((b1 - 224) * 4096 + (b2 - 128) * 64 + (b3 - 128) < 55296
        ∨ 57343 < (b1 - 224) * 4096 + (b2 - 128) * 64 + (b3 - 128)))
    (Y : List Char) :
    escDecode (hexDigitChar (b1 / 16) :: hexDigitChar (b1 % 16)
        :: '%' :: hexDigitChar (b2 / 16) :: hexDigitChar (b2 % 16)
        :: '%' :: hexDigitChar (b3 / 16) :: hexDigitChar (b3 % 16) :: Y)
      = some (Char.ofNat ((b1 - 224) * 4096 + (b2 - 128) * 64 + (b3 - 128)), Y) := by
  simp only [escDecode]
  rw [hexVal_hexDigitChar _ (by omega), hexVal_hexDigitChar _ (by omega)]
  simp only [Option.some_bind]
  rw [Nat.div_add_mod]
  rw [if_neg (by omega), if_neg (by omega), if_pos ⟨h1a, h1b⟩]
  rw [contEsc_comp h2a h2b]
  simp only [Option.some_bind]
  rw [contEsc_comp h3a h3b]
  simp only [Option.some_bind]
  rw [if_pos hval]

theorem escDecode_4 {b1 b2 b3 b4 : Nat} (h1a : 240 ≤ b1) (h1b : b1 ≤ 244)
    (h2a : 128 ≤ b2) (h2b : b2 < 192) (h3a : 128 ≤ b3) (h3b : b3 < 192)
    (h4a : 128 ≤ b4) (h4b : b4 < 192)
    (hval : 65536 ≤ (b1 - 240) * 262144 + (b2 - 128) * 4096
        + (b3 - 128) * 64 + (b4 - 128)
      ∧ (b1 - 240) * 262144 + (b2 - 128) * 4096 + (b3 - 128) * 64 + (b4 - 128)
        ≤ 1114111)
    (Y : List Char) :
    escDecode (hexDigitChar (b1 / 16) :: hexDigitChar (b1 % 16)
        :: '%' :: hexDigitChar (b2 / 16) :: hexDigitChar (b2 % 16)
        :: '%' :: hexDigitChar (b3 / 16) :: hexDigitChar (b3 % 16)
        :: '%' :: hexDigitChar (b4 / 16) :: hexDigitChar (b4 % 16) :: Y)
      = some (Char.ofNat ((b1 - 240) * 262144 + (b2 - 128) * 4096
          + (b3 - 128) * 64 + (b4 - 128)), Y) := by
  simp only [escDecode]
  rw [hexVal_hexDigitChar _ (by omega), hexVal_hexDigitChar _ (by omega)]
  simp only [Option.some_bind]
  rw [Nat.div_add_mod]
  rw [if_neg (by omega), if_neg (by omega), if_neg (by omega), if_pos ⟨h1a, h1b⟩]
  rw [contEsc_comp h2a h2b]
  simp only [Option.some_bind]
  rw [contEsc_comp h3a h3b]
  simp only [Option.some_bind]
  rw [contEsc_comp h4a h4b]
  simp only [Option.some_bind]
  rw [if_pos hval]

theorem decodeOne_encodeChar (c : Char) (Y : List Char) :
    decodeOne (encodeChar c ++ Y) = some (c, Y) := by
  by_cases hu : isUnreserved c = true
  · rw [encodeChar_unres hu]
    rw [List.cons_append, List.nil_append]
    exact decodeOne_plain (unres_ne hu).1 Y
  · have hval := char_valid_range c
    by_cases h1 : c.toNat < 128
    · rw [encodeChar_b1 hu h1]
      simp only [List.cons_append, List.nil_append]
      rw [decodeOne_esc, escDecode_1 h1, Char.ofNat_toNat]
    · by_cases h2 : c.toNat < 2048
      · rw [encodeChar_b2 hu (by omega) h2]
        simp only [List.cons_append, List.nil_append]
        rw [decodeOne_esc,
          @escDecode_2 (192 + c.toNat / 64) (128 + c.toNat % 64)
            (by omega) (by omega) (by omega) (by omega) _]
        have harith : (192 + c.toNat / 64 - 192) * 64 + (128 + c.toNat % 64 - 128)
            = c.toNat := by omega
        rw [harith, Char.ofNat_toNat]
      · by_cases h3 : c.toNat < 65536
        · rw [encodeChar_b3 hu (by omega) h3]
          simp only [List.cons_append, List.nil_append]
          have harith : (224 + c.toNat / 4096 - 224) * 4096
              + (128 + c.toNat / 64 % 64 - 128) * 64 + (128 + c.toNat % 64 - 128)
              = c.toNat := by omega
          rw [decodeOne_esc,
            @escDecode_3 (224 + c.toNat / 4096) (128 + c.toNat / 64 % 64)
              (128 + c.toNat % 64)
              (by omega) (by omega) (by omega) (by omega) (by omega) (by omega)
              (by rw [harith]; omega) _]
          rw [harith, Char.ofNat_toNat]
        · rw [encodeChar_b4 hu (by omega)]
          simp only [List.cons_append, List.nil_append]
          have harith : (240 + c.toNat / 262144 - 240) * 262144
              + (128 + c.toNat / 4096 % 64 - 128) * 4096
              + (128 + c.toNat / 64 % 64 - 128) * 64 + (128 + c.toNat % 64 - 128)
              = c.toNat := by omega
          rw [decodeOne_esc,
            @escDecode_4 (240 + c.toNat / 262144)
              (128 + c.toNat / 4096 % 64) (128 + c.toNat / 64 % 64)
              (128 + c.toNat % 64)
              (by omega) (by omega) (by omega) (by omega) (by omega) (by omega)
              (by omega) (by omega) (by rw [harith]; omega) _]
          rw [harith, Char.ofNat_toNat]

/-! ## replacePct20 and plusToSpace on encoded output -/

theorem rp_space (l : List Char) :
    replacePct20 ('%' :: '2' :: '0' :: l) = '+' :: replacePct20 l := rfl

theorem rp_cons_ne {c : Char} (h : c ≠ '%') (l : List Char) :
    replacePct20 (c :: l) = c :: replacePct20 l := by
  rw [replacePct20.eq_def]
  split
  · rename_i heq
    injection heq with h1 _
    exact absurd h1 h
  · rename_i c' rest hex heq
    injection heq with h1 h2
    rw [h1, h2]
  · rename_i heq
    cases heq

theorem rp_pct_no20 {c2 c3 : Char} (h : ¬(c2 = '2' ∧ c3 = '0')) (l : List Char) :
    replacePct20 ('%' :: c2 :: c3 :: l) = '%' :: replacePct20 (c2 :: c3 :: l) := by
  rw [replacePct20.eq_def]
  split
  · rename_i heq
    injection heq with _ heq2
    injection heq2 with h2 heq3
    injection heq3 with h3 _
    exact absurd ⟨h2, h3⟩ h
  · rename_i c' rest hex heq
    injection heq with h1 h2
    rw [h1, h2]
  · rename_i heq
    cases heq

theorem rp_triple {b : Nat} (hb : b < 256) (h32 : b ≠ 32) (l : List Char) :
    replacePct20 ('%' :: hexDigitChar (b / 16) :: hexDigitChar (b % 16) :: l)
      = '%' :: hexDigitChar (b / 16) :: hexDigitChar (b % 16) :: replacePct20 l := by
  have hd : b / 16 < 16 := by omega
  have hm : b % 16 < 16 := by omega
  have hno : ¬ (hexDigitChar (b / 16) = '2' ∧ hexDigitChar (b % 16) = '0') := by
    rintro ⟨h2, h0⟩
    rw [hexDigitChar_eq_two _ hd] at h2
    rw [hexDigitChar_eq_zero _ hm] at h0
    omega
  rw [rp_pct_no20 hno, rp_cons_ne (hexDigitChar_ne_pct _ hd),
    rp_cons_ne (hexDigitChar_ne_pct _ hm)]

theorem space_toNat : (' ' : Char).toNat = 32 := rfl

theorem rp_encodeChar (c : Char) (l : List Char) :
    replacePct20 (encodeChar c ++ l)
      = (if c = ' ' then ['+'] else encodeChar c) ++ replacePct20 l := by
  by_cases hsp : c = ' '
  · subst hsp
    rw [if_pos rfl]
    have henc : encodeChar ' ' = ['%', '2', '0'] := by decide
    rw [henc]
    simp only [List.cons_append, List.nil_append]
    exact rp_space l
  · rw [if_neg hsp]
    have h32 : c.toNat ≠ 32 := by
      intro h
      exact hsp (char_toNat_inj (by rw [h, space_toNat]))
    by_cases hu : isUnreserved c = true
    · rw [encodeChar_unres hu]
      simp only [List.cons_append, List.nil_append]
      rw [rp_cons_ne (unres_ne hu).1]
    · have hval := char_valid_range c
      by_cases h1 : c.toNat < 128
      · rw [encodeChar_b1 hu h1]
        simp only [List.cons_append, List.nil_append]
        rw [rp_triple (by omega) h32]
      · by_cases h2 : c.toNat < 2048
        · rw [encodeChar_b2 hu (by omega) h2]
          simp only [List.cons_append, List.nil_append]
          rw [rp_triple (by omega) (by omega), rp_triple (by omega) (by omega)]
        · by_cases h3 : c.toNat < 65536
          · rw [encodeChar_b3 hu (by omega) h3]
            simp only [List.cons_append, List.nil_append]
            rw [rp_triple (by omega) (by omega), rp_triple (by omega) (by omega),
              rp_triple (by omega) (by omega)]
          · rw [encodeChar_b4 hu (by omega)]
            simp only [List.cons_append, List.nil_append]
            have hlt : c.toNat < 1114112 := by
              rcases hval with h | ⟨_, h⟩ <;> omega
            rw [rp_triple (by omega) (by omega), rp_triple (by omega) (by omega),
              rp_triple (by omega) (by omega), rp_triple (by omega) (by omega)]

theorem p2s_append (a b : List Char) :
    plusToSpace (a ++ b) = plusToSpace a ++ plusToSpace b := by
  unfold plusToSpace
  rw [List.map_append]

theorem p2s_id {l : List Char} (h : ∀ x ∈ l, x ≠ '+') : plusToSpace l = l := by
  induction l with
  | nil => rfl
  | cons c rest ih =>
    unfold plusToSpace at ih ⊢
    rw [List.map_cons]
    rw [if_neg (h c (List.mem_cons_self c rest))]
    rw [ih (fun x hx => h x (List.mem_cons_of_mem _ hx))]

theorem utf8Bytes_lt (c : Char) : ∀ b ∈ utf8Bytes c, b < 256 := by
  intro b hb
  have hval := char_valid_range c
  have hlt : c.toNat < 1114112 := by
    rcases hval with h | ⟨_, h⟩ <;> omega
  unfold utf8Bytes at hb
  simp only [] at hb
  split_ifs at hb with h1 h2 h3
  all_goals simp only [List.mem_cons, List.mem_singleton] at hb
  all_goals rcases hb with rfl | hb
  all_goals first
    | omega
    | (rcases hb with rfl | hb
       <;> first
        | omega
        | (rcases hb with rfl | hb
           <;> first
            | omega
            | (rcases hb with rfl | hb <;> first | omega | cases hb)
            | cases hb)
        | cases hb)
    | cases hb

theorem encodeChar_no_plus (c : Char) : ∀ x ∈ encodeChar c, x ≠ '+' := by
  intro x hx
  unfold encodeChar at hx
  by_cases hu : isUnreserved c = true
  · rw [if_pos hu] at hx
    rcases List.mem_singleton.1 hx with rfl
    intro h
    rw [h] at hu
    cases hu
  · rw [if_neg hu] at hx
    rcases List.mem_flatten.1 hx with ⟨tr, htr, hxtr⟩
    rcases List.mem_map.1 htr with ⟨b, hbm, rfl⟩
    have hb := utf8Bytes_lt c b hbm
    unfold pctTriple at hxtr
    simp only [List.mem_cons, List.not_mem_nil, or_false] at hxtr
    rcases hxtr with rfl | rfl | rfl
    · decide
    · exact hexDigitChar_ne_plus _ (by omega)
    · exact hexDigitChar_ne_plus _ (by omega)

theorem p2s_encodeChar {c : Char} (h : c ≠ ' ') :
    plusToSpace (encodeChar c) = encodeChar c :=
  p2s_id (encodeChar_no_plus c)

theorem encodeChar_ne_nil (c : Char) : encodeChar c ≠ [] := by
  unfold encodeChar
  by_cases hu : isUnreserved c = true
  · rw [if_pos hu]
    simp
  · rw [if_neg hu]
    unfold utf8Bytes
    simp only []
    split_ifs <;> simp [pctTriple]

theorem decodeChars_encodeChar (c : Char) (Y : List Char) :
    decodeChars (encodeChar c ++ Y) = (decodeChars Y).map (fun t => c :: t) := by
  cases henc : encodeChar c with
  | nil => exact absurd henc (encodeChar_ne_nil c)
  | cons e0 erest =>
    rw [List.cons_append, decodeChars_cons]
    have hone : decodeOne (e0 :: (erest ++ Y)) = some (c, Y) := by
      have hde := decodeOne_encodeChar c Y
      rw [henc, List.cons_append] at hde
      exact hde
    rw [hone]

theorem decode_encode_chars (s : List Char) :
    decodeChars (plusToSpace (replacePct20 (encodeChars s))) = some s := by
  induction s with
  | nil => rfl
  | cons c rest ih =>
    have henc : encodeChars (c :: rest) = encodeChar c ++ encodeChars rest := rfl
    rw [henc, rp_encodeChar]
    by_cases hsp : c = ' '
    · subst hsp
      rw [if_pos rfl, p2s_append]
      rw [show plusToSpace ['+'] = [' '] from rfl]
      rw [show ([' '] : List Char) ++ plusToSpace (replacePct20 (encodeChars rest))
        = ' ' :: plusToSpace (replacePct20 (encodeChars rest)) from rfl]
      rw [decodeChars_cons, decodeOne_plain (by decide)]
      show (decodeChars (plusToSpace (replacePct20 (encodeChars rest)))).map
          (fun t => ' ' :: t) = some (' ' :: rest)
      rw [ih]
      rfl
    · rw [if_neg hsp, p2s_append, p2s_encodeChar hsp, decodeChars_encodeChar, ih]
      rfl

theorem decode_encode_str (s : String) :
    History.decode (History.encode s) = some s := by
  unfold History.decode History.encode
  rw [show (⟨replacePct20 (encodeChars s.data)⟩ : String).data
    = replacePct20 (encodeChars s.data) from rfl]
  rw [decode_encode_chars]
  cases s
  rfl

/-! ## Characters of encoded output are regex-friendly -/

theorem rp_encodeChars (s : List Char) :
    replacePct20 (encodeChars s)
      = (s.map (fun c => if c = ' ' then ['+'] else encodeChar c)).flatten := by
  induction s with
  | nil => rfl
  | cons c rest ih =>
    rw [show encodeChars (c :: rest) = encodeChar c ++ encodeChars rest from rfl]
    rw [rp_encodeChar, ih, List.map_cons, List.flatten_cons]

theorem encodeChar_good (c : Char) : ∀ x ∈ encodeChar c,
    g1ok x = true ∧ x ≠ '=' := by
  intro x hx
  unfold encodeChar at hx
  by_cases hu : isUnreserved c = true
  · rw [if_pos hu] at hx
    rcases List.mem_singleton.1 hx with rfl
    exact ⟨(unres_ne hu).2.2.2.2, (unres_ne hu).2.2.2.1⟩
  · rw [if_neg hu] at hx
    rcases List.mem_flatten.1 hx with ⟨tr, htr, hxtr⟩
    rcases List.mem_map.1 htr with ⟨b, hbm, rfl⟩
    have hb := utf8Bytes_lt c b hbm
    unfold pctTriple at hxtr
    simp only [List.mem_cons, List.not_mem_nil, or_false] at hxtr
    rcases hxtr with rfl | rfl | rfl
    · exact ⟨by decide, by decide⟩
    · exact hexDigitChar_good _ (by omega)
    · exact hexDigitChar_good _ (by omega)

theorem encode_good (s : String) : ∀ x ∈ (History.encode s).data,
    g1ok x = true ∧ x ≠ '=' := by
  intro x hx
  rw [show (History.encode s).data = replacePct20 (encodeChars s.data) from rfl,
    rp_encodeChars] at hx
  rcases List.mem_flatten.1 hx with ⟨blk, hblk, hxb⟩
  rcases List.mem_map.1 hblk with ⟨c, _, rfl⟩
  by_cases hsp : c = ' '
  · rw [if_pos hsp] at hxb
    rcases List.mem_singleton.1 hxb with rfl
    exact ⟨by decide, by decide⟩
  · rw [if_neg hsp] at hxb
    exact encodeChar_good c x hxb

theorem g1ok_g2ok {c : Char} (h : g1ok c = true) : g2ok c = true := by
  unfold g1ok at h
  unfold g2ok
  simp only [Bool.and_eq_true] at h
  exact h.2

theorem g1ok_ne_amp {c : Char} (h : g1ok c = true) : c ≠ '&' := by
  intro hc
  rw [hc] at h
  cases h

theorem encode_ne_nil {s : String} (h : s.data ≠ []) :
    (History.encode s).data ≠ [] := by
  rw [show (History.encode s).data = replacePct20 (encodeChars s.data) from rfl]
  cases hd : s.data with
  | nil => exact absurd hd h
  | cons c rest =>
    rw [show encodeChars (c :: rest) = encodeChar c ++ encodeChars rest from rfl]
    rw [rp_encodeChar]
    by_cases hsp : c = ' '
    · rw [if_pos hsp]
      simp
    · rw [if_neg hsp]
      cases henc : encodeChar c with
      | nil => exact absurd henc (encodeChar_ne_nil c)
      | cons e0 erest => simp

theorem str_eta (s : String) : (⟨s.data⟩ : String) = s := by
  cases s
  rfl

/-! ## The regex scan on a canonical hash -/

theorem takeWhile_all_append {p : Char → Bool} (K L : List Char)
    (h : ∀ x ∈ K, p x = true) :
    (K ++ L).takeWhile p = K ++ L.takeWhile p := by
  induction K with
  | nil => rfl
  | cons c rest ih =>
    rw [List.cons_append, List.takeWhile_cons_of_pos (h c (List.mem_cons_self c rest))]
    rw [ih (fun x hx => h x (List.mem_cons_of_mem _ hx)), List.cons_append]

theorem findSplit_unique (cs : List Char) (g0 : Nat) (hg0 : 1 ≤ g0) :
    ∀ n, g0 ≤ n →
    (∀ j, 1 ≤ j → j ≤ n → j ≠ g0 → ¬(cs.get? j = some '=')) →
    cs.get? g0 = some '=' →
    (match cs.get? (g0 + 1) with | some c => g2ok c | none => false) = true →
    findSplit cs n = some g0 := by
  intro n
  induction n with
  | zero => intro hle; omega
  | succ j ih =>
    intro hle huniq heq hnext
    unfold findSplit
    by_cases hj : j + 1 = g0
    · have hj2 : j + 2 = g0 + 1 := by omega
      rw [if_pos]
      · rw [hj]
      · rw [hj, hj2, heq]
        simp only [beq_self_eq_true, Bool.true_and]
        exact hnext
    · rw [if_neg]
      · exact ih (by omega)
          (fun i h1 h2 h3 => huniq i h1 (by omega) h3) heq hnext
      · intro hc
        simp only [Bool.and_eq_true, beq_iff_eq] at hc
        exact huniq (j + 1) (by omega) (by omega) hj hc.1

theorem tryMatchAt_seg (K V T : List Char)
    (hK : K ≠ []) (hV : V ≠ [])
    (hKg : ∀ x ∈ K, g1ok x = true ∧ x ≠ '=')
    (hVg : ∀ x ∈ V, g1ok x = true ∧ x ≠ '=')
    (hT : T = [] ∨ ∃ T2, T = '&' :: T2) :
    tryMatchAt (K ++ '=' :: (V ++ T)) = some (K ++ '=' :: V, T) := by
  have hKlen : 1 ≤ K.length := by
    cases K with
    | nil => exact absurd rfl hK
    | cons a b => simp
  have hVlen : 1 ≤ V.length := by
    cases V with
    | nil => exact absurd rfl hV
    | cons a b => simp
  have htwT : T.takeWhile g1ok = [] := by
    rcases hT with rfl | ⟨T2, rfl⟩
    · rfl
    · rw [List.takeWhile_cons_of_neg (by decide)]
  have htwT2 : T.takeWhile g2ok = [] := by
    rcases hT with rfl | ⟨T2, rfl⟩
    · rfl
    · rw [List.takeWhile_cons_of_neg (by decide)]
  have htw : (K ++ '=' :: (V ++ T)).takeWhile g1ok = K ++ '=' :: V := by
    rw [takeWhile_all_append K _ (fun x hx => (hKg x hx).1)]
    rw [List.takeWhile_cons_of_pos (by decide)]
    rw [takeWhile_all_append V _ (fun x hx => (hVg x hx).1), htwT]
    rw [List.append_nil]
  have hsplit2 : K ++ '=' :: (V ++ T) = (K ++ ['=']) ++ (V ++ T) := by
    rw [List.append_assoc, List.singleton_append]
  have hsplit3 : K ++ '=' :: (V ++ T) = ((K ++ ['=']) ++ V) ++ T := by
    rw [List.append_assoc, List.append_assoc, List.singleton_append]
  have hget0 : (K ++ '=' :: (V ++ T)).get? K.length = some '=' := by
    rw [List.get?_append_right (Nat.le_refl _), Nat.sub_self]
    rfl
  have hgetV : (K ++ '=' :: (V ++ T)).get? (K.length + 1) = V.get? 0 := by
    rw [hsplit2, List.get?_append_right (by simp), List.length_append]
    rw [show K.length + 1 - (K.length + List.length ['=']) = 0 by simp]
    cases V with
    | nil => exact absurd rfl hV
    | cons v0 V' => rfl
  have hfs : findSplit (K ++ '=' :: (V ++ T)) (K ++ '=' :: V).length
      = some K.length := by
    apply findSplit_unique _ _ hKlen
    · simp only [List.length_append, List.length_cons]
      omega
    · intro j h1 h2 hne hc
      by_cases hlt : j < K.length
      · rw [List.get?_append hlt] at hc
        exact (hKg _ (List.get?_mem hc)).2 rfl
      · have hge : K.length + 1 ≤ j := by omega
        rw [hsplit2, List.get?_append_right (by simp; omega)] at hc
        simp only [List.length_append, List.length_singleton] at hc
        by_cases hjv : j - (K.length + 1) < V.length
        · rw [List.get?_append hjv] at hc
          exact (hVg _ (List.get?_mem hc)).2 rfl
        · have hj2 : j - (K.length + 1) = V.length := by
            simp only [List.length_append, List.length_cons] at h2
            omega
          rw [List.get?_append_right (by omega), hj2, Nat.sub_self] at hc
          rcases hT with rfl | ⟨T2, rfl⟩
          · cases hc
          · cases hc
    · exact hget0
    · rw [hgetV]
      cases V with
      | nil => exact absurd rfl hV
      | cons v0 V' =>
        show g2ok v0 = true
        exact g1ok_g2ok (hVg v0 (List.mem_cons_self _ _)).1
  unfold tryMatchAt
  rw [htw, hfs]
  have hdrop1 : (K ++ '=' :: (V ++ T)).drop (K.length + 1) = V ++ T := by
    rw [hsplit2]
    exact List.drop_left' (by simp)
  have hvv : ((K ++ '=' :: (V ++ T)).drop (K.length + 1)).takeWhile g2ok = V := by
    rw [hdrop1, takeWhile_all_append V _
      (fun x hx => g1ok_g2ok (hVg x hx).1), htwT2, List.append_nil]
  simp only [hvv]
  have htake : (K ++ '=' :: (V ++ T)).take (K.length + 1) = K ++ ['='] := by
    rw [hsplit2]
    exact List.take_left' (by simp)
  have hdrop2 : (K ++ '=' :: (V ++ T)).drop (K.length + 1 + V.length) = T := by
    rw [hsplit3]
    apply List.drop_left'
    simp only [List.length_append, List.length_singleton]
  rw [htake, hdrop2, List.append_assoc, List.singleton_append]

theorem scanAux_nil (f : Nat) : scanAux f [] = [] := by
  cases f <;> rfl

theorem scanAux_cons_some {c : Char} {rest m r' : List Char} {f : Nat}
    (h : tryMatchAt (c :: rest) = some (m, r')) :
    scanAux (f + 1) (c :: rest) = m :: scanAux f r' := by
  simp only [scanAux]
  rw [h]

theorem scanAux_cons_none {c : Char} {rest : List Char} {f : Nat}
    (h : tryMatchAt (c :: rest) = none) :
    scanAux (f + 1) (c :: rest) = scanAux f rest := by
  simp only [scanAux]
  rw [h]

theorem tryMatchAt_amp (l : List Char) : tryMatchAt ('&' :: l) = none := by
  unfold tryMatchAt
  rw [List.takeWhile_cons_of_neg (by decide)]
  rfl

theorem tryMatchAt_some_len {cs : List Char} {p : List Char × List Char}
    (h : tryMatchAt cs = some p) : p.2.length < cs.length := by
  unfold tryMatchAt at h
  cases hfs : findSplit cs (cs.takeWhile g1ok).length with
  | none =>
    rw [hfs] at h
    cases h
  | some g =>
    rw [hfs] at h
    have h' : some (cs.take (g + 1) ++ (cs.drop (g + 1)).takeWhile g2ok,
        cs.drop (g + 1 + ((cs.drop (g + 1)).takeWhile g2ok).length)) = some p := h
    have hne : cs ≠ [] := by
      intro hnil
      rw [hnil] at hfs
      have hfs' : (none : Option Nat) = some g := hfs
      cases hfs'
    have hpos : 0 < cs.length := List.length_pos.2 hne
    injection h' with hp
    rw [← hp]
    simp only [List.length_drop]
    omega

theorem scanAux_congr : ∀ (f1 : Nat) {cs : List Char} (f2 : Nat),
    cs.length ≤ f1 → cs.length ≤ f2 → scanAux f1 cs = scanAux f2 cs := by
  intro f1
  induction f1 with
  | zero =>
    intro cs f2 h1 h2
    have hn : cs = [] := List.length_eq_zero.1 (by omega)
    subst hn
    cases f2 <;> rfl
  | succ f ih =>
    intro cs f2 h1 h2
    cases cs with
    | nil => cases f2 <;> rfl
    | cons c rest =>
      cases f2 with
      | zero =>
        simp only [List.length_cons] at h2
        omega
      | succ f2' =>
        cases htm : tryMatchAt (c :: rest) with
        | none =>
          rw [scanAux_cons_none htm, scanAux_cons_none htm]
          simp only [List.length_cons] at h1 h2
          exact ih f2' (by omega) (by omega)
        | some p =>
          cases p with
          | mk m r' =>
            rw [scanAux_cons_some htm, scanAux_cons_some htm]
            have hl := tryMatchAt_some_len htm
            simp only [List.length_cons] at h1 h2 hl
            rw [ih f2' (by omega) (by omega)]

theorem scanMatches_last (K V : List Char)
    (hK : K ≠ []) (hV : V ≠ [])
    (hKg : ∀ x ∈ K, g1ok x = true ∧ x ≠ '=')
    (hVg : ∀ x ∈ V, g1ok x = true ∧ x ≠ '=') :
    scanMatches (K ++ '=' :: V) = [K ++ '=' :: V] := by
  have htm := tryMatchAt_seg K V [] hK hV hKg hVg (Or.inl rfl)
  rw [List.append_nil] at htm
  cases K with
  | nil => exact absurd rfl hK
  | cons k0 K' =>
    unfold scanMatches
    rw [List.cons_append] at htm ⊢
    simp only [List.length_cons]
    rw [scanAux_cons_some htm, scanAux_nil]

theorem scanMatches_step (K V T2 : List Char)
    (hK : K ≠ []) (hV : V ≠ [])
    (hKg : ∀ x ∈ K, g1ok x = true ∧ x ≠ '=')
    (hVg : ∀ x ∈ V, g1ok x = true ∧ x ≠ '=') :
    scanMatches (K ++ '=' :: (V ++ '&' :: T2))
      = (K ++ '=' :: V) :: scanMatches T2 := by
  have htm := tryMatchAt_seg K V ('&' :: T2) hK hV hKg hVg (Or.inr ⟨T2, rfl⟩)
  cases K with
  | nil => exact absurd rfl hK
  | cons k0 K' =>
    unfold scanMatches
    rw [List.cons_append] at htm ⊢
    simp only [List.length_cons]
    rw [scanAux_cons_some htm]
    have hlen : (K' ++ '=' :: (V ++ '&' :: T2)).length
        = K'.length + V.length + T2.length + 2 := by
      simp only [List.length_append, List.length_cons]
      omega
    rw [hlen]
    rw [show K'.length + V.length + T2.length + 2
      = (K'.length + V.length + T2.length + 1) + 1 from rfl]
    rw [scanAux_cons_none (tryMatchAt_amp T2)]
    rw [scanAux_congr _ T2.length (by omega) (Nat.le_refl _)]

/-! ## Parsing a canonical hash back -/

theorem splitOnEq_no_eq {l : List Char} (h : ∀ x ∈ l, x ≠ '=') :
    splitOnEq l = [l] := by
  induction l with
  | nil => rfl
  | cons c rest ih =>
    unfold splitOnEq
    rw [if_neg (h c (List.mem_cons_self c rest))]
    rw [ih (fun x hx => h x (List.mem_cons_of_mem _ hx))]

theorem splitOnEq_seg {K : List Char} (V : List Char)
    (hK : ∀ x ∈ K, x ≠ '=') :
    splitOnEq (K ++ '=' :: V) = K :: splitOnEq V := by
  induction K with
  | nil =>
    rw [List.nil_append]
    rw [show splitOnEq ('=' :: V) = [] :: splitOnEq V from rfl]
  | cons c rest ih =>
    rw [List.cons_append]
    simp only [splitOnEq]
    rw [if_neg (hK c (List.mem_cons_self _ _))]
    rw [ih (fun x hx => hK x (List.mem_cons_of_mem _ hx))]

theorem objSet_not_owned {st : HState} {k : String} (v : JSVal)
    (h : owns st k = false) : objSet st k v = st ++ [(k, v)] := by
  unfold objSet
  rw [h]
  rfl

theorem str_data_ne {s : String} (h : s ≠ "") : s.data ≠ [] := by
  intro hd
  apply h
  cases s with
  | mk d =>
    have hd' : d = [] := hd
    rw [hd']

theorem eq_str_data : ("=" : String).data = ['='] := rfl

theorem amp_str_data : ("&" : String).data = ['&'] := rfl

theorem createHash_single (k w : String) :
    (History.createHash [(k, JSVal.str w)]).data
      = (History.encode k).data ++ '=' :: (History.encode w).data := by
  show (History.encode k ++ "=" ++ History.encode w).data = _
  rw [String.data_append, String.data_append, eq_str_data]
  simp only [List.append_assoc, List.singleton_append]

theorem createHash_cons (k w : String) (rest : HState) (p2 : String)
    (ps : List String) (h : createHashPairs rest = p2 :: ps) :
    (History.createHash ((k, JSVal.str w) :: rest)).data
      = (History.encode k).data ++ '=' :: ((History.encode w).data
        ++ '&' :: (History.createHash rest).data) := by
  unfold History.createHash
  rw [show createHashPairs ((k, JSVal.str w) :: rest)
    = (History.encode k ++ "=" ++ History.encode w) :: createHashPairs rest from rfl]
  rw [h]
  rw [show joinAmp ((History.encode k ++ "=" ++ History.encode w) :: p2 :: ps)
    = (History.encode k ++ "=" ++ History.encode w) ++ "&" ++ joinAmp (p2 :: ps)
    from rfl]
  rw [String.data_append, String.data_append, String.data_append,
    String.data_append, eq_str_data, amp_str_data]
  simp only [List.append_assoc, List.singleton_append, List.cons_append,
    List.nil_append]

theorem parse_step_seg (params : HState) (k w : String) :
    (match splitOnEq ((History.encode k).data ++ '=' :: (History.encode w).data) with
      | p0 :: p1 :: _ =>
        match History.decode ⟨p0⟩, History.decode ⟨p1⟩ with
        | some kk, some vv => some (objSet params kk (JSVal.str vv))
        | _, _ => none
      | _ => none) = some (objSet params k (JSVal.str w)) := by
  rw [splitOnEq_seg _ (fun x hx => (encode_good k x hx).2)]
  rw [splitOnEq_no_eq (fun x hx => (encode_good w x hx).2)]
  show (match History.decode ⟨(History.encode k).data⟩,
      History.decode ⟨(History.encode w).data⟩ with
    | some kk, some vv => some (objSet params kk (JSVal.str vv))
    | _, _ => none) = some (objSet params k (JSVal.str w))
  rw [str_eta, str_eta, decode_encode_str, decode_encode_str]

theorem parse_fold_join : ∀ (m params₀ : HState),
    allStrVals m → nodupKeys m →
    (∀ kv ∈ m, kv.1.data ≠ []) →
    (∀ kv ∈ m, kv.2 ≠ JSVal.str "") →
    (∀ kv ∈ m, owns params₀ kv.1 = false) →
    (scanMatches (History.createHash m).data).foldlM
      (fun params mm =>
        match splitOnEq mm with
        | p0 :: p1 :: _ =>
          match History.decode ⟨p0⟩, History.decode ⟨p1⟩ with
          | some k, some v => some (objSet params k (JSVal.str v))
          | _, _ => none
        | _ => none)
      params₀ = some (params₀ ++ m) := by
  intro m
  induction m with
  | nil =>
    intro params₀ _ _ _ _ _
    rw [List.append_nil]
    rfl
  | cons kv rest ih =>
    intro params₀ hstr hnd hkne hvne hp0
    cases kv with
    | mk k v =>
      have hvs := hstr (k, v) (List.mem_cons_self _ _)
      cases v with
      | null => cases hvs
      | undef => cases hvs
      | str w =>
        have hkd : k.data ≠ [] := hkne (k, JSVal.str w) (List.mem_cons_self _ _)
        have hwne : w ≠ "" := by
          intro he
          exact hvne (k, JSVal.str w) (List.mem_cons_self _ _) (by rw [he])
        have hwd : w.data ≠ [] := str_data_ne hwne
        have hKne := encode_ne_nil hkd
        have hWne := encode_ne_nil hwd
        have hKg := encode_good k
        have hWg := encode_good w
        have hown : owns params₀ k = false :=
          hp0 (k, JSVal.str w) (List.mem_cons_self _ _)
        cases rest with
        | nil =>
          rw [createHash_single k w]
          rw [scanMatches_last _ _ hKne hWne hKg hWg]
          simp only [List.foldlM]
          rw [parse_step_seg]
          rw [objSet_not_owned _ hown]
          simp only [Option.bind_eq_bind, Option.some_bind]
          rfl
        | cons kv2 r2 =>
          have hv2 := hstr kv2 (List.mem_cons_of_mem _ (List.mem_cons_self _ _))
          obtain ⟨p2, ps, hcp⟩ : ∃ p2 ps, createHashPairs (kv2 :: r2) = p2 :: ps := by
            cases kv2 with
            | mk k2 v2 =>
              cases v2 with
              | null => cases hv2
              | undef => cases hv2
              | str w2 => exact ⟨_, _, rfl⟩
          rw [createHash_cons k w (kv2 :: r2) p2 ps hcp]
          rw [scanMatches_step _ _ _ hKne hWne hKg hWg]
          simp only [List.foldlM]
          rw [parse_step_seg]
          rw [objSet_not_owned _ hown]
          simp only [Option.bind_eq_bind, Option.some_bind]
          have hknotin : (k, JSVal.str w).1 ∉ (kv2 :: r2).map Prod.fst :=
            (nodupKeys_cons hnd).1
          rw [ih (params₀ ++ [(k, JSVal.str w)])
            (fun q hq => hstr q (List.mem_cons_of_mem _ hq))
            (nodupKeys_cons hnd).2
            (fun q hq => hkne q (List.mem_cons_of_mem _ hq))
            (fun q hq => hvne q (List.mem_cons_of_mem _ hq))
            ?_]
          · simp only [List.append_assoc, List.singleton_append]
          · intro q hq
            rw [owns_eq_false_iff]
            intro pv hpv
            rcases List.mem_append.1 hpv with hpm | hpm
            · exact (owns_eq_false_iff.1 (hp0 q (List.mem_cons_of_mem _ hq))) pv hpm
            · rcases List.mem_singleton.1 hpm with rfl
              intro hc
              exact hknotin (mem_keys_iff.2 ⟨q, hq, hc.symm⟩)

/-- C9 (amended): encoding and decoding are a faithful round trip at the level
of a single component: History.decode (History.encode s) = some s for every
string s, including spaces (via the %20/+ rewrites) and multi-byte characters.
Moreover a whole state survives createHash followed by parseHash - parseHash ''
(createHash m) = some m - provided m is well formed for the fragment syntax:
string values, distinct keys, and no empty key or empty value (the regex
requires at least one character on each side of '='; see C9_counterexample and
C10 for what happens otherwise). -/
theorem C9_amended_thm (s : String) (m : HState)
    (h1 : allStrVals m) (h2 : nodupKeys m)
    (h3 : ∀ kv ∈ m, kv.1 ≠ "") (h4 : ∀ kv ∈ m, kv.2 ≠ JSVal.str "") :
    History.decode (History.encode s) = some s ∧
    History.parseHash "" (History.createHash m) = some m := by
  refine ⟨decode_encode_str s, ?_⟩
  unfold History.parseHash
  rw [show parseStrip "" (History.createHash m) = History.createHash m from by
    unfold parseStrip
    rw [if_pos rfl]]
  rw [parse_fold_join m [] h1 h2
    (fun kv hm => str_data_ne (h3 kv hm))
    h4 (fun kv hm => rfl)]
  rw [List.nil_append]

/-- Witness for C9_amended_thm: the string "a b" (with a space) round-trips
through encode/decode, and the two-key state a=1, b=2 round-trips through
createHash/parseHash. -/
theorem C9_amended_witness :
    History.decode (History.encode "a b") = some "a b" ∧
    History.parseHash ""
        (History.createHash [("a", JSVal.str "1"), ("b", JSVal.str "2")])
      = some [("a", JSVal.str "1"), ("b", JSVal.str "2")] :=
  C9_amended_thm "a b" [("a", JSVal.str "1"), ("b", JSVal.str "2")]
    (by decide) (by decide) (by decide) (by decide)
